import Mathlib

/-!
Shallow embedding of the delimiter-reconciliation and whitespace-normalization
core of `src/pix2tex/utils/utils.py` (functions `post_process`,
`find_all_left_or_right`, `match_left_right`, `post_post_process_latex`).

Strings are modelled as `List Char`.  Python regex character classes are
modelled on their ASCII fragment: `[a-zA-Z]` is `isLetterAscii`; the class
`[\W_^\d]` (non-word chars, underscore, caret, digits) is the complement of
the ASCII letters — Python's `\W` also excludes non-ASCII word characters,
but every non-ASCII character actually handled by this code (full-width
punctuation, bracket glyphs) is a non-word character in Python as well, so
the two agree on them.  Python's `\s` (and the `str.strip` character set) is
modelled exactly, Unicode whitespace included.  `str.isalpha` is modelled by
its ASCII fragment.  Python exceptions (the scanner's possible IndexError) are
modelled by `Except Unit`.  Loops whose index jumps are written with an
explicit fuel argument so that every definition reduces by kernel
computation; each fuel is initialized large enough that exhaustion is
unreachable (the loop consumes at least one unit of its measure per step).
-/

/-- Python `\s` on `str` patterns (also the character set of `str.strip`):
the Unicode whitespace code points — U+0009–U+000D, U+001C–U+001F, U+0020,
U+0085, U+00A0, U+1680, U+2000–U+200A, U+2028, U+2029, U+202F, U+205F,
U+3000. -/
def isWs (c : Char) : Bool :=
  (9 ≤ c.toNat && c.toNat ≤ 13) || (28 ≤ c.toNat && c.toNat ≤ 32) ||
  c.toNat = 133 || c.toNat = 160 || c.toNat = 5760 ||
  (8192 ≤ c.toNat && c.toNat ≤ 8202) || c.toNat = 8232 || c.toNat = 8233 ||
  c.toNat = 8239 || c.toNat = 8287 || c.toNat = 12288

/-- The regex class `[a-zA-Z]` (called `letter` in `post_process`). -/
def isLetterAscii (c : Char) : Bool :=
  ('a' ≤ c && c ≤ 'z') || ('A' ≤ c && c ≤ 'Z')

/-- The regex class `[\W_^\d]` (called `noletter` in `post_process`):
everything except a letter. -/
def noLW (c : Char) : Bool := !isLetterAscii c

/-- Python `str.strip()`: drop leading and trailing whitespace. -/
def strip (l : List Char) : List Char :=
  ((l.dropWhile isWs).reverse.dropWhile isWs).reverse

/-- Python slicing `s[a:b]` (for 0 ≤ a, b; out-of-range indices clip). -/
def pySlice (s : List Char) (a b : Nat) : List Char := (s.take b).drop a

/-- `re.sub(r'\s+', ' ', s)`: collapse each whitespace run to one space. -/
def collapseWs : List Char → List Char
  | [] => []
  | [c] => if isWs c then [' '] else [c]
  | c1 :: c2 :: rest =>
    if isWs c1 && isWs c2 then collapseWs (c2 :: rest)
    else (if isWs c1 then ' ' else c1) :: collapseWs (c2 :: rest)

/-- The full-width punctuation pre-pass of `post_post_process_latex`:
`（`→`(`, `）`→`)`, `，`→`,`. -/
def replPunct (c : Char) : Char :=
  if c = '（' then '(' else if c = '）' then ')' else if c = '，' then ',' else c

/-! ### The protected-command substitution of `post_process`

`text_reg = r'(\\(operatorname|mathrm|text|mathbf)\s?\*? {.*?})'`:
a backslash, one of four names, an optional whitespace char, an optional
star, a mandatory literal space, `{`, then a non-greedy run of non-newline
characters up to the first `}`.  Each match is replaced by itself with all
`' '` characters removed (`findall` + `names.pop(0)` + `re.sub` combined:
both passes scan the same regex over the same string, so the k-th
substitution inserts the k-th match stripped of spaces). -/

/-- The four protected command names, in the alternation order of `text_reg`. -/
def cmdNames : List (List Char) :=
  ["operatorname".data, "mathrm".data, "text".data, "mathbf".data]

/-- The `\*? {` part of `text_reg` (the optional star, the mandatory literal
space, the opening brace). -/
def noWsBranch : List Char → Option (List Char × List Char)
  | c1 :: c2 :: c3 :: r =>
    if c1 = '*' ∧ c2 = ' ' ∧ c3 = '{' then some (['*', ' ', '{'], r)
    else if c1 = ' ' ∧ c2 = '{' then some ([' ', '{'], c3 :: r)
    else none
  | c1 :: c2 :: r =>
    if c1 = ' ' ∧ c2 = '{' then some ([' ', '{'], r) else none
  | _ => none

/-- The `\s?\*? {` part of `text_reg` including the opening brace; returns
(consumed text, rest).  Mirrors the regex backtracking order: `\s?` consuming
one whitespace char is tried first, falling back to the empty alternative. -/
def gapBrace (l : List Char) : Option (List Char × List Char) :=
  match l with
  | [] => none
  | w :: rest =>
    if isWs w then
      match noWsBranch rest with
      | some (g, r) => some (w :: g, r)
      | none => noWsBranch (w :: rest)
    else noWsBranch (w :: rest)

/-- The `.*?}` part of `text_reg`: the shortest prefix ending at the first
`}`; `.` does not match a newline, so a newline before the first `}` makes
the match fail.  Returns (argument text incl. the closing brace, rest). -/
def argScan : List Char → Option (List Char × List Char)
  | [] => none
  | c :: r =>
    if c = '}' then some (['}'], r)
    else if c = '\n' then none
    else
      match argScan r with
      | some (ap, rest) => some (c :: ap, rest)
      | none => none

/-- Try to match `text_reg` with a fixed command name at the position just
after the backslash. -/
def tryName (nm : List Char) (t : List Char) : Option (List Char × List Char) :=
  if nm.isPrefixOf t then
    match gapBrace (t.drop nm.length) with
    | some (g, r1) =>
      match argScan r1 with
      | some (ap, r2) => some ('\\' :: (nm ++ (g ++ ap)), r2)
      | none => none
    | none => none
  else none

/-- Try to match `text_reg` at the head of `l`; returns (match text, rest). -/
def matchCmdAt (l : List Char) : Option (List Char × List Char) :=
  match l with
  | [] => none
  | c :: t =>
    if c = '\\' then
      match tryName "operatorname".data t with
      | some res => some res
      | none =>
        match tryName "mathrm".data t with
        | some res => some res
        | none =>
          match tryName "text".data t with
          | some res => some res
          | none => tryName "mathbf".data t
    else none

/-- Left-to-right non-overlapping scan replacing every `text_reg` match by
itself with the spaces removed (the `names` substitution of `post_process`). -/
def protectAux : Nat → List Char → List Char
  | _, [] => []
  | 0, l => l
  | fuel+1, c :: rest =>
    match matchCmdAt (c :: rest) with
    | some (m, r) => m.filter (fun x => x ≠ ' ') ++ protectAux fuel r
    | none => c :: protectAux fuel rest

/-- The protected-command substitution step of `post_process`. -/
def protect (s : List Char) : List Char := protectAux s.length s

/-! ### The whitespace-collapse loop of `post_process`

Three `re.sub` passes, iterated to a fixed point:
  `(?!\\ )(noletter)\s+?(noletter)` → `\1\2`
  `(?!\\ )(noletter)\s+?(letter)`   → `\1\2`
  `(letter)\s+?(noletter)`          → `\1\2` -/

/-- The non-greedy `\s+?(g2)` after its first mandatory whitespace char:
try the group-2 class first, else consume further whitespace.  Returns the
group-2 char and the rest after it. -/
def scanNG (g2 : Char → Bool) : List Char → Option (Char × List Char)
  | [] => none
  | c :: t => if g2 c then some (c, t) else if isWs c then scanNG g2 t else none

/-- Match `\s+?(g2)` against `l` (at least one whitespace char, then the
first group-2 char, non-greedy). -/
def wsMatch (g2 : Char → Bool) : List Char → Option (Char × List Char)
  | [] => none
  | w :: t => if isWs w then scanNG g2 t else none

/-- The negative lookahead `(?!\\ )`: blocked exactly when the match would
start at a backslash immediately followed by a space. -/
def lookBlocked (lk : Bool) (c : Char) (rest : List Char) : Bool :=
  lk && c = '\\' && rest.head? = some ' '

/-- One `re.sub` pass for `(?!\\ )?(g1)\s+?(g2)` → `\1\2`: scan left to
right, non-overlapping, replacing each match by group1 ++ group2. -/
def subAux (g1 g2 : Char → Bool) (lk : Bool) : Nat → List Char → List Char
  | _, [] => []
  | 0, l => l
  | fuel+1, c :: rest =>
    if g1 c && !lookBlocked lk c rest then
      match wsMatch g2 rest with
      | some (c2, rest2) => c :: c2 :: subAux g1 g2 lk fuel rest2
      | none => c :: subAux g1 g2 lk fuel rest
    else c :: subAux g1 g2 lk fuel rest

/-- `re.sub(r'(?!\\ )(noletter)\s+?(noletter)', r'\1\2', s)`. -/
def sub1 (s : List Char) : List Char := subAux noLW noLW true s.length s

/-- `re.sub(r'(?!\\ )(noletter)\s+?(letter)', r'\1\2', s)`. -/
def sub2 (s : List Char) : List Char := subAux noLW isLetterAscii true s.length s

/-- `re.sub(r'(letter)\s+?(noletter)', r'\1\2', s)`. -/
def sub3 (s : List Char) : List Char := subAux isLetterAscii noLW false s.length s

/-- One iteration of the `while True` loop of `post_process`. -/
def ppIter (s : List Char) : List Char := sub3 (sub2 (sub1 s))

/-- The `while True: ... if news == s: break` loop; every changing iteration
strictly shrinks the string, so `length + 1` iterations always suffice. -/
def ppLoopAux : Nat → List Char → List Char
  | 0, s => s
  | fuel+1, s =>
    let n := ppIter s
    if n = s then s else ppLoopAux fuel n

/-- The fixed-point whitespace-collapse loop of `post_process`. -/
def ppLoop (s : List Char) : List Char := ppLoopAux (s.length + 1) s

/-- `post_process` (the spec's `normalize_whitespace`). -/
def post_process (s : List Char) : List Char := ppLoop (protect s)

/-! ### The delimiter scanner `find_all_left_or_right` -/

/-- A scanned `\left`/`\right` occurrence (spec `DelimiterOccurrence`,
dict `{'str': …, 'start': …, 'end': …}` in the code). -/
structure Occ where
  str : List Char
  start : Nat
  stop : Nat
deriving DecidableEq, Repr, Inhabited

/-- Match of `rf'\\{kw}\s*\S'` at position `i`: the literal backslash and
keyword, a greedy whitespace run, then one non-whitespace char; returns the
span end (index after the `\S` char). -/
def matchSpanEnd (kw s : List Char) (i : Nat) : Option Nat :=
  if ('\\' :: kw).isPrefixOf (s.drop i) then
    match (s.drop (i + (kw.length + 1))).findIdx? (fun c => !isWs c) with
    | some j => some (i + (kw.length + 1) + j + 1)
    | none => none
  else none

/-- `re.finditer` for `rf'\\{kw}\s*\S'`: non-overlapping spans, continuing
after each match (fuel: the position advances every step). -/
def scanAux (kw s : List Char) : Nat → Nat → List (Nat × Nat)
  | 0, _ => []
  | fuel+1, i =>
    if i < s.length then
      match matchSpanEnd kw s i with
      | some e => (i, e) :: scanAux kw s fuel e
      | none => scanAux kw s fuel (i + 1)
    else []

/-- All regex spans of `rf'\\{kw}\s*\S'` in `s`, in ascending start order. -/
def scanSpans (kw s : List Char) : List (Nat × Nat) := scanAux kw s (s.length + 1) 0

/-- The inner `while end < len(latex) and latex[end].isalpha(): end += 1`. -/
def skipAlphaFrom (s : List Char) (e : Nat) : Nat :=
  e + ((s.drop e).takeWhile isLetterAscii).length

/-- The span-extension loop
`while latex[end-1] in ('\\', ' '): end += 1; <skip alphabetic>`.
The subscript `latex[end-1]` is unchecked in the source: when `end - 1`
reaches the string length the Python code raises IndexError, modelled as
`Except.error`.  `end` grows by at least one per iteration, so fuel
`length + 2` is never exhausted (the loop errors out at `end = length + 1`). -/
def extendLoop (s : List Char) : Nat → Nat → Except Unit Nat
  | 0, _ => Except.error ()
  | fuel+1, e =>
    if h : e - 1 < s.length then
      if s.get ⟨e - 1, h⟩ = '\\' ∨ s.get ⟨e - 1, h⟩ = ' ' then
        extendLoop s fuel (skipAlphaFrom s (e + 1))
      else Except.ok e
    else Except.error ()

/-- Run the span-extension loop from a regex span end. -/
def extendEnd (s : List Char) (e : Nat) : Except Unit Nat :=
  extendLoop s (s.length + 2) e

/-- Build one occurrence from a regex span:
`ori_str = latex[start + prefix_len : end].strip()` with
`prefix_len = len(kw) + 1`. -/
def occOf (kw s : List Char) (sp : Nat × Nat) : Except Unit Occ :=
  match extendEnd s sp.2 with
  | Except.ok e2 => Except.ok ⟨strip (pySlice s (sp.1 + (kw.length + 1)) e2), sp.1, e2⟩
  | Except.error u => Except.error u

/-- Build all occurrences left to right, aborting at the first error (the
Python loop raises mid-scan). -/
def occsOf (kw s : List Char) : List (Nat × Nat) → Except Unit (List Occ)
  | [] => Except.ok []
  | sp :: rest =>
    match occOf kw s sp with
    | Except.ok o =>
      match occsOf kw s rest with
      | Except.ok os => Except.ok (o :: os)
      | Except.error u => Except.error u
    | Except.error u => Except.error u

/-- `find_all_left_or_right(latex, kw)`: scan, extend, and sort by `start`
(the Python `sort` inside the loop; appends are already in ascending start
order, so a stable sort by `start` models it). -/
def find_all_left_or_right (kw s : List Char) : Except Unit (List Occ) :=
  match occsOf kw s (scanSpans kw s) with
  | Except.ok occs => Except.ok (occs.insertionSort (fun a b => a.start ≤ b.start))
  | Except.error u => Except.error u

/-! ### `match_left_right` and the greedy pairing -/

/-- The static bracket-equivalence table `match_pairs`. -/
def match_pairs : List (List Char × List Char) :=
  [("", ""), ("(", ")"), ("\\\x7b", "."), ("⟮", "⟯"), ("[", "]"), ("⟨", "⟩"),
   ("\x7b", "\x7d"), ("⌈", "⌉"), ("┌", "┐"), ("⌊", "⌋"), ("└", "┘"),
   ("⎰", "⎱"), ("lt", "gt"), ("lang", "rang"), ("langle", "rangle"),
   ("lbrace", "rbrace"), ("lBrace", "rBrace"), ("lbracket", "rbracket"),
   ("lceil", "rceil"), ("lcorner", "rcorner"), ("lfloor", "rfloor"),
   ("lgroup", "rgroup"), ("lmoustache", "rmoustache"), ("lparen", "rparen"),
   ("lvert", "rvert"), ("lVert", "rVert")].map (fun p => (p.1.data, p.2.data))

/-- `while left_str and right_str and left_str[0] == right_str[0]: drop both`. -/
def stripCommon : List Char → List Char → List Char × List Char
  | a :: as, b :: bs => if a = b then stripCommon as bs else (a :: as, b :: bs)
  | as, bs => (as, bs)

/-- `match_left_right(left_str, right_str)`: strip/space-remove both, drop
`len('left')+1 = 5` chars from the first argument and `len('right')+1 = 6`
from the second, strip the shared prefix, and look the pair up in the table. -/
def match_left_right (left_str right_str : List Char) : Bool :=
  let l := ((strip left_str).filter (fun c => c ≠ ' ')).drop 5
  let r := ((strip right_str).filter (fun c => c ≠ ' ')).drop 6
  decide (stripCommon l r ∈ match_pairs)

/-- The inner-loop condition of the pairing pass: right occurrence not yet
matched, its start strictly greater than the left's, and bracket-compatible
(note the call `match_left_right(right.str, left.str)`). -/
def eligibleB (L : Occ) (p : Occ × Bool) : Bool :=
  !p.2 && decide (L.start < p.1.start) && match_left_right p.1.str L.str

/-- Scan the rights in list order; mark the first eligible one and stop. -/
def claimRight (L : Occ) : List (Occ × Bool) → Option (List (Occ × Bool))
  | [] => none
  | p :: rest =>
    if eligibleB L p then some ((p.1, true) :: rest)
    else
      match claimRight L rest with
      | some rest2 => some (p :: rest2)
      | none => none

/-- The full pairing pass: process lefts in list order; a left is flagged
true iff it claimed a right. -/
def pairAll : List Occ → List (Occ × Bool) → List (Occ × Bool) × List (Occ × Bool)
  | [], rs => ([], rs)
  | L :: ls, rs =>
    match claimRight L rs with
    | some rs2 =>
      let q := pairAll ls rs2
      ((L, true) :: q.1, q.2)
    | none =>
      let q := pairAll ls rs
      ((L, false) :: q.1, q.2)

/-- `latex[:start] + ' ' * n + latex[start+n:]`. -/
def blankAt (s : List Char) (st n : Nat) : List Char :=
  s.take st ++ List.replicate n ' ' ++ s.drop (st + n)

/-- Blank the keyword (`n` chars at `start`) of every unmatched occurrence. -/
def blankUnmatched (n : Nat) : List (Occ × Bool) → List Char → List Char
  | [], s => s
  | p :: rest, s => blankUnmatched n rest (if p.2 then s else blankAt s p.1.start n)

/-- `post_post_process_latex` (the spec's `reconcile_delimiters`):
punctuation pre-pass, scan both keywords, greedy pairing, blank unmatched
keywords (5 chars for `\left`, 6 for `\right`), collapse whitespace. -/
def post_post_process_latex (s : List Char) : Except Unit (List Char) :=
  let t := s.map replPunct
  match find_all_left_or_right "left".data t with
  | Except.error u => Except.error u
  | Except.ok lefts =>
    match find_all_left_or_right "right".data t with
    | Except.error u => Except.error u
    | Except.ok rights =>
      let q := pairAll lefts (rights.map (fun r => (r, false)))
      let t2 := blankUnmatched 5 q.1 t
      let t3 := blankUnmatched 6 q.2 t2
      Except.ok (collapseWs t3)

/-! ### Auxiliary definitions for the proofs -/

/-- The number of whitespace characters of a string (the termination measure
named by the spec for the `post_process` fixed-point loop). -/
def wsCount (s : List Char) : Nat := s.countP isWs

/-- Whether one of the three collapse-sub regexes matches at the head of `l`
(same condition as the matching branch of `subAux`). -/
def headMatchB (g1 g2 : Char → Bool) (lk : Bool) : List Char → Bool
  | [] => false
  | c :: rest => g1 c && !lookBlocked lk c rest && (wsMatch g2 rest).isSome

/-- Spec-side formulation of the inner scan of the pairing pass (spec §4.2
step 3): the index of the first right-occurrence, in list order, that is
unmatched, starts strictly after the left, and is bracket-compatible. -/
def firstEligibleIdx (L : Occ) : List (Occ × Bool) → Option Nat
  | [] => none
  | p :: rest =>
    if eligibleB L p then some 0 else (firstEligibleIdx L rest).map (· + 1)

/-- Spec-side single step: select the first eligible right-occurrence and
mark it matched in place; report whether one was found. -/
def specStep (L : Occ) (rs : List (Occ × Bool)) : Bool × List (Occ × Bool) :=
  match firstEligibleIdx L rs with
  | some i => (true, rs.set i ((rs.getD i default).1, true))
  | none => (false, rs)

/-- Spec-side pairing pass: iterate the left-occurrences in list order,
each claiming the first eligible right-occurrence. -/
def specGreedy : List Occ → List (Occ × Bool) → List (Occ × Bool) × List (Occ × Bool)
  | [], rs => ([], rs)
  | L :: ls, rs =>
    let s1 := specStep L rs
    let q := specGreedy ls s1.2
    ((L, s1.1) :: q.1, q.2)

/-! ### Character-class facts -/

theorem char_le_toNat {a b : Char} (h : a ≤ b) : a.toNat ≤ b.toNat := h

theorem letter_not_ws {c : Char} (h : isLetterAscii c = true) : isWs c = false := by
  simp only [isLetterAscii, Bool.or_eq_true, Bool.and_eq_true, decide_eq_true_eq] at h
  by_contra hws
  rw [Bool.not_eq_false] at hws
  simp only [isWs, Bool.or_eq_true, Bool.and_eq_true, decide_eq_true_eq] at hws
  rcases h with ⟨h1, h2⟩ | ⟨h1, h2⟩
  · have g1 := char_le_toNat h1
    have g2 := char_le_toNat h2
    rw [show Char.toNat 'a' = 97 from rfl] at g1
    rw [show Char.toNat 'z' = 122 from rfl] at g2
    omega
  · have g1 := char_le_toNat h1
    have g2 := char_le_toNat h2
    rw [show Char.toNat 'A' = 65 from rfl] at g1
    rw [show Char.toNat 'Z' = 90 from rfl] at g2
    omega

theorem ws_not_letter {c : Char} (h : isWs c = true) : isLetterAscii c = false := by
  cases hl : isLetterAscii c with
  | false => rfl
  | true => exact absurd h (by rw [letter_not_ws hl]; simp)

theorem ws_ne_backslash {c : Char} (h : isWs c = true) : c ≠ '\\' := by
  intro heq
  subst heq
  revert h
  decide

theorem letter_ne_backslash {c : Char} (h : isLetterAscii c = true) : c ≠ '\\' := by
  intro rfl'
  subst rfl'
  revert h
  decide

/-! ### Decomposition lemmas for the collapse subs -/

theorem scanNG_decomp {g2 : Char → Bool} :
    ∀ {l : List Char} {c2 : Char} {r : List Char}, scanNG g2 l = some (c2, r) →
      ∃ run, l = run ++ c2 :: r ∧ (∀ x ∈ run, isWs x = true) ∧ g2 c2 = true
  | [], _, _, h => by simp [scanNG] at h
  | c :: t, c2, r, h => by
    rw [scanNG] at h
    by_cases hg : g2 c = true
    · rw [if_pos hg] at h
      obtain ⟨rfl, rfl⟩ : c = c2 ∧ t = r := by
        constructor <;> [exact (Prod.mk.injEq _ _ _ _ ▸ Option.some.inj h).1;
          exact (Prod.mk.injEq _ _ _ _ ▸ Option.some.inj h).2]
      exact ⟨[], by simp, by simp, hg⟩
    · rw [if_neg hg] at h
      by_cases hw : isWs c = true
      · rw [if_pos hw] at h
        obtain ⟨run, hrun, hws, hg2⟩ := scanNG_decomp h
        exact ⟨c :: run, by simp [hrun], by
          intro x hx
          rcases List.mem_cons.mp hx with rfl | hx
          · exact hw
          · exact hws x hx, hg2⟩
      · rw [if_neg hw] at h
        exact absurd h (by simp)

theorem wsMatch_decomp {g2 : Char → Bool} {l : List Char} {c2 : Char} {r : List Char}
    (h : wsMatch g2 l = some (c2, r)) :
    ∃ run, l = run ++ c2 :: r ∧ run ≠ [] ∧ (∀ x ∈ run, isWs x = true) ∧ g2 c2 = true := by
  match l with
  | [] => simp [wsMatch] at h
  | w :: t =>
    rw [wsMatch] at h
    by_cases hw : isWs w = true
    · rw [if_pos hw] at h
      obtain ⟨run, hrun, hws, hg2⟩ := scanNG_decomp h
      refine ⟨w :: run, by simp [hrun], by simp, ?_, hg2⟩
      intro x hx
      rcases List.mem_cons.mp hx with rfl | hx
      · exact hw
      · exact hws x hx
    · rw [if_neg hw] at h
      exact absurd h (by simp)

theorem wsMatch_none_of_head_not_ws {g2 : Char → Bool} {c : Char} {t : List Char}
    (h : isWs c = false) : wsMatch g2 (c :: t) = none := by
  rw [wsMatch, if_neg (by simp [h])]

/-! ### Length and whitespace-count behaviour of one sub pass -/

theorem wsMatch_rest_len {g2 : Char → Bool} {rest : List Char} {c2 : Char}
    {rest2 : List Char} (hwm : wsMatch g2 rest = some (c2, rest2)) :
    rest2.length + 2 ≤ rest.length := by
  obtain ⟨run, hrun, hne, -, -⟩ := wsMatch_decomp hwm
  have hp : 0 < run.length := List.length_pos.mpr hne
  rw [hrun, List.length_append, List.length_cons]
  omega

theorem wsMatch_rest_ws {g2 : Char → Bool} {rest : List Char} {c2 : Char}
    {rest2 : List Char} (hwm : wsMatch g2 rest = some (c2, rest2)) :
    wsCount rest2 + (if isWs c2 = true then 1 else 0) + 1 ≤ wsCount rest := by
  obtain ⟨run, hrun, hne, hws, -⟩ := wsMatch_decomp hwm
  have hp : 1 ≤ wsCount run := by
    cases run with
    | nil => exact absurd rfl hne
    | cons a as =>
      have ha : isWs a = true := hws a (List.mem_cons_self a as)
      simp [wsCount, List.countP_cons, ha]
  rw [hrun]
  simp only [wsCount, List.countP_append, List.countP_cons] at *
  omega

theorem subAux_length_le (g1 g2 : Char → Bool) (lk : Bool) :
    ∀ fuel (l : List Char), (subAux g1 g2 lk fuel l).length ≤ l.length := by
  intro fuel
  induction fuel with
  | zero => intro l; cases l <;> simp [subAux]
  | succ fuel ih =>
    intro l
    cases l with
    | nil => simp [subAux]
    | cons c rest =>
      rw [subAux]
      by_cases hg : (g1 c && !lookBlocked lk c rest) = true
      · rw [if_pos hg]
        cases hwm : wsMatch g2 rest with
        | none =>
          show (c :: subAux g1 g2 lk fuel rest).length ≤ (c :: rest).length
          simpa using ih rest
        | some p =>
          obtain ⟨c2, rest2⟩ := p
          show (c :: c2 :: subAux g1 g2 lk fuel rest2).length ≤ (c :: rest).length
          have h1 := ih rest2
          have h2 := wsMatch_rest_len hwm
          simp only [List.length_cons]
          omega
      · rw [if_neg hg]
        simpa using ih rest

theorem subAux_eq_of_length (g1 g2 : Char → Bool) (lk : Bool) :
    ∀ fuel (l : List Char), (subAux g1 g2 lk fuel l).length = l.length →
      subAux g1 g2 lk fuel l = l := by
  intro fuel
  induction fuel with
  | zero => intro l _; cases l <;> simp [subAux]
  | succ fuel ih =>
    intro l hlen
    cases l with
    | nil => simp [subAux]
    | cons c rest =>
      rw [subAux] at hlen ⊢
      by_cases hg : (g1 c && !lookBlocked lk c rest) = true
      · rw [if_pos hg] at hlen ⊢
        cases hwm : wsMatch g2 rest with
        | none =>
          have hlen2 : (c :: subAux g1 g2 lk fuel rest).length = (c :: rest).length := by
            rw [hwm] at hlen; exact hlen
          show (c :: subAux g1 g2 lk fuel rest) = c :: rest
          simp only [List.length_cons, Nat.add_right_cancel_iff] at hlen2
          rw [ih rest hlen2]
        | some p =>
          obtain ⟨c2, rest2⟩ := p
          have hlen2 : (c :: c2 :: subAux g1 g2 lk fuel rest2).length = (c :: rest).length := by
            rw [hwm] at hlen; exact hlen
          exfalso
          have h1 := subAux_length_le g1 g2 lk fuel rest2
          have h2 := wsMatch_rest_len hwm
          simp only [List.length_cons] at hlen2
          omega
      · rw [if_neg hg] at hlen ⊢
        simp only [List.length_cons, Nat.add_right_cancel_iff] at hlen
        rw [ih rest hlen]

theorem subAux_wsCount_le (g1 g2 : Char → Bool) (lk : Bool) :
    ∀ fuel (l : List Char), wsCount (subAux g1 g2 lk fuel l) ≤ wsCount l := by
  intro fuel
  induction fuel with
  | zero => intro l; cases l <;> simp [subAux]
  | succ fuel ih =>
    intro l
    cases l with
    | nil => simp [subAux]
    | cons c rest =>
      rw [subAux]
      by_cases hg : (g1 c && !lookBlocked lk c rest) = true
      · rw [if_pos hg]
        cases hwm : wsMatch g2 rest with
        | none =>
          show wsCount (c :: subAux g1 g2 lk fuel rest) ≤ wsCount (c :: rest)
          have := ih rest
          simp only [wsCount, List.countP_cons] at *
          omega
        | some p =>
          obtain ⟨c2, rest2⟩ := p
          show wsCount (c :: c2 :: subAux g1 g2 lk fuel rest2) ≤ wsCount (c :: rest)
          have h1 := ih rest2
          have h2 := wsMatch_rest_ws hwm
          simp only [wsCount, List.countP_cons] at *
          omega
      · rw [if_neg hg]
        have := ih rest
        simp only [wsCount, List.countP_cons] at *
        omega

theorem subAux_wsCount_lt (g1 g2 : Char → Bool) (lk : Bool) :
    ∀ fuel (l : List Char), subAux g1 g2 lk fuel l ≠ l →
      wsCount (subAux g1 g2 lk fuel l) < wsCount l := by
  intro fuel
  induction fuel with
  | zero => intro l h; cases l <;> simp [subAux] at h
  | succ fuel ih =>
    intro l hne
    cases l with
    | nil => simp [subAux] at hne
    | cons c rest =>
      rw [subAux] at hne ⊢
      by_cases hg : (g1 c && !lookBlocked lk c rest) = true
      · rw [if_pos hg] at hne ⊢
        cases hwm : wsMatch g2 rest with
        | none =>
          have hne2 : (c :: subAux g1 g2 lk fuel rest) ≠ c :: rest := by
            rw [hwm] at hne; exact hne
          show wsCount (c :: subAux g1 g2 lk fuel rest) < wsCount (c :: rest)
          have h1 : subAux g1 g2 lk fuel rest ≠ rest := by
            intro he; exact hne2 (by rw [he])
          have := ih rest h1
          simp only [wsCount, List.countP_cons] at *
          omega
        | some p =>
          obtain ⟨c2, rest2⟩ := p
          show wsCount (c :: c2 :: subAux g1 g2 lk fuel rest2) < wsCount (c :: rest)
          have h1 := subAux_wsCount_le g1 g2 lk fuel rest2
          have h2 := wsMatch_rest_ws hwm
          simp only [wsCount, List.countP_cons] at *
          omega
      · rw [if_neg hg] at hne ⊢
        have h1 : subAux g1 g2 lk fuel rest ≠ rest := by
          intro he; exact hne (by rw [he])
        have := ih rest h1
        simp only [wsCount, List.countP_cons] at *
        omega

theorem subAux_length_lt (g1 g2 : Char → Bool) (lk : Bool) (fuel : Nat) (l : List Char)
    (hne : subAux g1 g2 lk fuel l ≠ l) :
    (subAux g1 g2 lk fuel l).length < l.length := by
  rcases Nat.lt_or_ge (subAux g1 g2 lk fuel l).length l.length with h | h
  · exact h
  · exact absurd (subAux_eq_of_length g1 g2 lk fuel l
      (Nat.le_antisymm (subAux_length_le g1 g2 lk fuel l) h)) hne

/-! ### One iteration of the collapse loop -/

theorem ppIter_wsCount_le (s : List Char) : wsCount (ppIter s) ≤ wsCount s :=
  calc wsCount (ppIter s) ≤ wsCount (sub2 (sub1 s)) := subAux_wsCount_le _ _ _ _ _
    _ ≤ wsCount (sub1 s) := subAux_wsCount_le _ _ _ _ _
    _ ≤ wsCount s := subAux_wsCount_le _ _ _ _ _

theorem ppIter_wsCount_lt (s : List Char) (h : ppIter s ≠ s) :
    wsCount (ppIter s) < wsCount s := by
  by_cases h1 : sub1 s = s
  · by_cases h2 : sub2 (sub1 s) = sub1 s
    · have h3 : sub3 (sub2 (sub1 s)) ≠ sub2 (sub1 s) := by
        intro he
        exact h (by rw [ppIter, he, h2, h1])
      calc wsCount (ppIter s) < wsCount (sub2 (sub1 s)) := subAux_wsCount_lt _ _ _ _ _ h3
        _ ≤ wsCount (sub1 s) := subAux_wsCount_le _ _ _ _ _
        _ ≤ wsCount s := subAux_wsCount_le _ _ _ _ _
    · calc wsCount (ppIter s) ≤ wsCount (sub2 (sub1 s)) := subAux_wsCount_le _ _ _ _ _
        _ < wsCount (sub1 s) := subAux_wsCount_lt _ _ _ _ _ h2
        _ ≤ wsCount s := subAux_wsCount_le _ _ _ _ _
  · calc wsCount (ppIter s) ≤ wsCount (sub2 (sub1 s)) := subAux_wsCount_le _ _ _ _ _
      _ ≤ wsCount (sub1 s) := subAux_wsCount_le _ _ _ _ _
      _ < wsCount s := subAux_wsCount_lt _ _ _ _ _ h1

theorem ppIter_length_lt (s : List Char) (h : ppIter s ≠ s) :
    (ppIter s).length < s.length := by
  by_cases h1 : sub1 s = s
  · by_cases h2 : sub2 (sub1 s) = sub1 s
    · have h3 : sub3 (sub2 (sub1 s)) ≠ sub2 (sub1 s) := by
        intro he
        exact h (by rw [ppIter, he, h2, h1])
      calc (ppIter s).length < (sub2 (sub1 s)).length := subAux_length_lt _ _ _ _ _ h3
        _ ≤ (sub1 s).length := subAux_length_le _ _ _ _ _
        _ ≤ s.length := subAux_length_le _ _ _ _ _
    · calc (ppIter s).length ≤ (sub2 (sub1 s)).length := subAux_length_le _ _ _ _ _
        _ < (sub1 s).length := subAux_length_lt _ _ _ _ _ h2
        _ ≤ s.length := subAux_length_le _ _ _ _ _
  · calc (ppIter s).length ≤ (sub2 (sub1 s)).length := subAux_length_le _ _ _ _ _
      _ ≤ (sub1 s).length := subAux_length_le _ _ _ _ _
      _ < s.length := subAux_length_lt _ _ _ _ _ h1

theorem ppLoop_id_of_iter {s : List Char} (h : ppIter s = s) : ppLoop s = s := by
  rw [ppLoop, ppLoopAux]
  simp [h]

/-! ### The loop reaches a fixed point of all three subs -/

theorem ppLoopAux_fix :
    ∀ fuel (s : List Char), s.length < fuel →
      ppIter (ppLoopAux fuel s) = ppLoopAux fuel s := by
  intro fuel
  induction fuel with
  | zero => intro s h; omega
  | succ fuel ih =>
    intro s h
    rw [ppLoopAux]
    show ppIter (if ppIter s = s then s else ppLoopAux fuel (ppIter s))
      = if ppIter s = s then s else ppLoopAux fuel (ppIter s)
    by_cases he : ppIter s = s
    · rw [if_pos he, he]
    · rw [if_neg he]
      exact ih (ppIter s) (by have := ppIter_length_lt s he; omega)

theorem ppLoop_fix (s : List Char) : ppIter (ppLoop s) = ppLoop s :=
  ppLoopAux_fix (s.length + 1) s (Nat.lt_succ_self _)

theorem sub1_eq_of_length {l : List Char} (h : (sub1 l).length = l.length) :
    sub1 l = l := subAux_eq_of_length _ _ _ _ _ h

theorem sub2_eq_of_length {l : List Char} (h : (sub2 l).length = l.length) :
    sub2 l = l := subAux_eq_of_length _ _ _ _ _ h

theorem sub3_eq_of_length {l : List Char} (h : (sub3 l).length = l.length) :
    sub3 l = l := subAux_eq_of_length _ _ _ _ _ h

theorem subs_id_of_iter_id {f : List Char} (h : ppIter f = f) :
    sub1 f = f ∧ sub2 f = f ∧ sub3 f = f := by
  have l1 : (sub1 f).length ≤ f.length := subAux_length_le _ _ _ _ _
  have l2 : (sub2 (sub1 f)).length ≤ (sub1 f).length := subAux_length_le _ _ _ _ _
  have l3 : (sub3 (sub2 (sub1 f))).length ≤ (sub2 (sub1 f)).length :=
    subAux_length_le _ _ _ _ _
  have hc : (sub3 (sub2 (sub1 f))).length = f.length := by
    rw [show sub3 (sub2 (sub1 f)) = f from h]
  have h1 : sub1 f = f := sub1_eq_of_length (by omega)
  rw [h1] at l2 l3 hc
  have h2 : sub2 f = f := sub2_eq_of_length (by omega)
  rw [h2] at l3 hc
  have h3 : sub3 f = f := sub3_eq_of_length (by omega)
  exact ⟨h1, h2, h3⟩

/-! ### A sub pass that changes nothing has no match anywhere -/

theorem subAux_id_noMatch (g1 g2 : Char → Bool) (lk : Bool) :
    ∀ fuel (l : List Char), l.length ≤ fuel → subAux g1 g2 lk fuel l = l →
      ∀ t, t <:+ l → headMatchB g1 g2 lk t = false := by
  intro fuel
  induction fuel with
  | zero =>
    intro l hl _ t ht
    have hnil : l = [] := List.length_eq_zero.mp (Nat.le_zero.mp hl)
    subst hnil
    have : t = [] := List.suffix_nil.mp ht
    subst this
    rfl
  | succ fuel ih =>
    intro l hl hid t ht
    cases l with
    | nil =>
      have : t = [] := List.suffix_nil.mp ht
      subst this
      rfl
    | cons c rest =>
      rw [subAux] at hid
      have hrl : rest.length ≤ fuel := by
        simp only [List.length_cons] at hl; omega
      by_cases hg : (g1 c && !lookBlocked lk c rest) = true
      · rw [if_pos hg] at hid
        cases hwm : wsMatch g2 rest with
        | some p =>
          obtain ⟨c2, rest2⟩ := p
          rw [hwm] at hid
          exfalso
          have hlen := congrArg List.length hid
          have h1 := subAux_length_le g1 g2 lk fuel rest2
          have h2 := wsMatch_rest_len hwm
          simp only [List.length_cons] at hlen
          omega
        | none =>
          rw [hwm] at hid
          have h2 : subAux g1 g2 lk fuel rest = rest := by
            injection hid
          rcases List.suffix_cons_iff.mp ht with rfl | ht2
          · rw [headMatchB, hwm]
            simp
          · exact ih rest hrl h2 t ht2
      · rw [if_neg hg] at hid
        have h2 : subAux g1 g2 lk fuel rest = rest := by
          injection hid
        rcases List.suffix_cons_iff.mp ht with rfl | ht2
        · rw [headMatchB]
          rw [Bool.not_eq_true] at hg
          rw [hg, Bool.false_and]
        · exact ih rest hrl h2 t ht2

/-! ### Head-match witnesses for the shapes occurring inside a `text_reg` match -/

theorem headMatch_letter_space_brace {lc : Char} (hlc : isLetterAscii lc = true)
    (X : List Char) :
    headMatchB isLetterAscii noLW false (lc :: ' ' :: '{' :: X) = true := by
  have hw : wsMatch noLW (' ' :: '{' :: X) = some ('{', X) := by
    rw [wsMatch, if_pos (by decide), scanNG, if_pos (by decide)]
  rw [headMatchB, hw]
  simp [hlc, lookBlocked]

theorem headMatch_sym_space_brace {p : Char} (hp : noLW p = true) (hpb : p ≠ '\\')
    (X : List Char) :
    headMatchB noLW noLW true (p :: ' ' :: '{' :: X) = true := by
  have hw : wsMatch noLW (' ' :: '{' :: X) = some ('{', X) := by
    rw [wsMatch, if_pos (by decide), scanNG, if_pos (by decide)]
  rw [headMatchB, hw]
  simp [hp, lookBlocked, hpb]

/-! ### Inversion of the `text_reg` matcher -/

theorem noWsBranch_inv {l g r : List Char} (h : noWsBranch l = some (g, r)) :
    l = g ++ r ∧ (g = ['*', ' ', '{'] ∨ g = [' ', '{']) := by
  rcases l with _ | ⟨c1, _ | ⟨c2, _ | ⟨c3, r0⟩⟩⟩
  · simp [noWsBranch] at h
  · simp [noWsBranch] at h
  · simp only [noWsBranch] at h
    split_ifs at h with h1
    obtain ⟨rfl, rfl⟩ := h1
    simp only [Option.some.injEq, Prod.mk.injEq] at h
    obtain ⟨rfl, rfl⟩ := h
    exact ⟨rfl, Or.inr rfl⟩
  · simp only [noWsBranch] at h
    split_ifs at h with h1 h2
    · obtain ⟨rfl, rfl, rfl⟩ := h1
      simp only [Option.some.injEq, Prod.mk.injEq] at h
      obtain ⟨rfl, rfl⟩ := h
      exact ⟨rfl, Or.inl rfl⟩
    · obtain ⟨rfl, rfl⟩ := h2
      simp only [Option.some.injEq, Prod.mk.injEq] at h
      obtain ⟨rfl, rfl⟩ := h
      exact ⟨rfl, Or.inr rfl⟩

theorem gapBrace_inv {l g r : List Char} (h : gapBrace l = some (g, r)) :
    l = g ++ r ∧ (g = [' ', '{'] ∨ g = ['*', ' ', '{'] ∨
      ∃ w, isWs w = true ∧ (g = [w, ' ', '{'] ∨ g = [w, '*', ' ', '{'])) := by
  cases l with
  | nil => simp [gapBrace] at h
  | cons w rest =>
    rw [gapBrace] at h
    by_cases hw : isWs w = true
    · rw [if_pos (by simp [hw])] at h
      cases hnb : noWsBranch rest with
      | some p =>
        obtain ⟨g0, r0⟩ := p
        rw [hnb] at h
        have h2 : some (w :: g0, r0) = some (g, r) := h
        simp only [Option.some.injEq, Prod.mk.injEq] at h2
        obtain ⟨rfl, rfl⟩ := h2
        obtain ⟨hrest, hg0⟩ := noWsBranch_inv hnb
        constructor
        · rw [hrest]; rfl
        · rcases hg0 with rfl | rfl
          · exact Or.inr (Or.inr ⟨w, hw, Or.inr rfl⟩)
          · exact Or.inr (Or.inr ⟨w, hw, Or.inl rfl⟩)
      | none =>
        rw [hnb] at h
        have h2 : noWsBranch (w :: rest) = some (g, r) := h
        obtain ⟨hl, hg⟩ := noWsBranch_inv h2
        exact ⟨hl, hg.symm.imp_right Or.inl⟩
    · rw [if_neg (by simp [hw])] at h
      obtain ⟨hl, hg⟩ := noWsBranch_inv h
      exact ⟨hl, hg.symm.imp_right Or.inl⟩

theorem argScan_inv :
    ∀ {l ap r : List Char}, argScan l = some (ap, r) → l = ap ++ r
  | [], _, _, h => by simp [argScan] at h
  | c :: l0, ap, r, h => by
    rw [argScan] at h
    by_cases hc : c = '}'
    · rw [if_pos hc] at h
      simp only [Option.some.injEq, Prod.mk.injEq] at h
      obtain ⟨rfl, rfl⟩ := h
      rw [hc]
      rfl
    · rw [if_neg hc] at h
      by_cases hn : c = '\n'
      · rw [if_pos hn] at h
        exact absurd h (by simp)
      · rw [if_neg hn] at h
        cases ha : argScan l0 with
        | some p =>
          obtain ⟨ap0, r0⟩ := p
          rw [ha] at h
          have h2 : some (c :: ap0, r0) = some (ap, r) := h
          simp only [Option.some.injEq, Prod.mk.injEq] at h2
          obtain ⟨rfl, rfl⟩ := h2
          rw [argScan_inv ha]
          rfl
        | none => rw [ha] at h; exact absurd h (by simp)

theorem tryName_inv {nm t m r : List Char} (h : tryName nm t = some (m, r)) :
    ∃ g ap, t = nm ++ (g ++ (ap ++ r)) ∧ m = '\\' :: (nm ++ (g ++ ap)) ∧
      (g = [' ', '{'] ∨ g = ['*', ' ', '{'] ∨
        ∃ w, isWs w = true ∧ (g = [w, ' ', '{'] ∨ g = [w, '*', ' ', '{'])) := by
  rw [tryName] at h
  by_cases hp : nm.isPrefixOf t
  · rw [if_pos hp] at h
    obtain ⟨t2, ht2⟩ := List.isPrefixOf_iff_prefix.mp hp
    rw [← ht2, List.drop_left] at h
    cases hgb : gapBrace t2 with
    | none => rw [hgb] at h; exact absurd h (by simp)
    | some p =>
      obtain ⟨g, r1⟩ := p
      rw [hgb] at h
      have h2 : (match argScan r1 with
        | some (ap, r2) => some ('\\' :: (nm ++ (g ++ ap)), r2)
        | none => none) = some (m, r) := h
      cases has : argScan r1 with
      | none => rw [has] at h2; exact absurd h2 (by simp)
      | some q =>
        obtain ⟨ap, r2⟩ := q
        rw [has] at h2
        have h3 : some ('\\' :: (nm ++ (g ++ ap)), r2) = some (m, r) := h2
        simp only [Option.some.injEq, Prod.mk.injEq] at h3
        obtain ⟨rfl, rfl⟩ := h3
        obtain ⟨hsp, hshape⟩ := gapBrace_inv hgb
        refine ⟨g, ap, ?_, rfl, hshape⟩
        rw [← ht2, hsp, argScan_inv has]
  · rw [if_neg hp] at h
    exact absurd h (by simp)

theorem matchCmd_inv {l m r : List Char} (h : matchCmdAt l = some (m, r)) :
    ∃ nm g ap, nm ∈ cmdNames ∧ l = '\\' :: (nm ++ (g ++ (ap ++ r))) ∧
      (g = [' ', '{'] ∨ g = ['*', ' ', '{'] ∨
        ∃ w, isWs w = true ∧ (g = [w, ' ', '{'] ∨ g = [w, '*', ' ', '{'])) := by
  cases l with
  | nil => simp [matchCmdAt] at h
  | cons c t =>
    rw [matchCmdAt] at h
    by_cases hc : c = '\\'
    · rw [if_pos hc] at h
      subst hc
      cases h1 : tryName "operatorname".data t with
      | some p =>
        rw [h1] at h
        have hpe : some p = some (m, r) := h
        rw [Option.some.inj hpe] at h1
        obtain ⟨g, ap, ht, -, hshape⟩ := tryName_inv h1
        exact ⟨"operatorname".data, g, ap, by simp [cmdNames], by rw [ht], hshape⟩
      | none =>
        rw [h1] at h
        have h2 : (match tryName "mathrm".data t with
          | some res => some res
          | none =>
            match tryName "text".data t with
            | some res => some res
            | none => tryName "mathbf".data t) = some (m, r) := h
        cases h2a : tryName "mathrm".data t with
        | some p =>
          rw [h2a] at h2
          have hpe : some p = some (m, r) := h2
          rw [Option.some.inj hpe] at h2a
          obtain ⟨g, ap, ht, -, hshape⟩ := tryName_inv h2a
          exact ⟨"mathrm".data, g, ap, by simp [cmdNames], by rw [ht], hshape⟩
        | none =>
          rw [h2a] at h2
          have h3 : (match tryName "text".data t with
            | some res => some res
            | none => tryName "mathbf".data t) = some (m, r) := h2
          cases h3a : tryName "text".data t with
          | some p =>
            rw [h3a] at h3
            have hpe : some p = some (m, r) := h3
            rw [Option.some.inj hpe] at h3a
            obtain ⟨g, ap, ht, -, hshape⟩ := tryName_inv h3a
            exact ⟨"text".data, g, ap, by simp [cmdNames], by rw [ht], hshape⟩
          | none =>
            rw [h3a] at h3
            have h4 : tryName "mathbf".data t = some (m, r) := h3
            obtain ⟨g, ap, ht, -, hshape⟩ := tryName_inv h4
            exact ⟨"mathbf".data, g, ap, by simp [cmdNames], by rw [ht], hshape⟩
    · rw [if_neg hc] at h
      exact absurd h (by simp)

theorem cmd_last {nm : List Char} (h : nm ∈ cmdNames) :
    ∃ nm0 lc, nm = nm0 ++ [lc] ∧ isLetterAscii lc = true := by
  rcases (by simpa [cmdNames] using h :
      nm = "operatorname".data ∨ nm = "mathrm".data ∨ nm = "text".data ∨
        nm = "mathbf".data) with rfl | rfl | rfl | rfl
  · exact ⟨['o','p','e','r','a','t','o','r','n','a','m'], 'e', by decide, by decide⟩
  · exact ⟨['m','a','t','h','r'], 'm', by decide, by decide⟩
  · exact ⟨['t','e','x'], 't', by decide, by decide⟩
  · exact ⟨['m','a','t','h','b'], 'f', by decide, by decide⟩

/-! ### A string fixed by all three subs has no `text_reg` match -/

theorem protectAux_id {l : List Char} (h : ∀ t, t <:+ l → matchCmdAt t = none) :
    ∀ fuel, protectAux fuel l = l := by
  induction l with
  | nil => intro fuel; cases fuel <;> rfl
  | cons c rest ih =>
    intro fuel
    cases fuel with
    | zero => rfl
    | succ fuel =>
      rw [protectAux, h (c :: rest) (List.suffix_refl _)]
      rw [ih (fun t ht => h t (ht.trans (List.suffix_cons c rest))) fuel]

theorem protect_id {l : List Char} (h : ∀ t, t <:+ l → matchCmdAt t = none) :
    protect l = l := protectAux_id h l.length

theorem noCmd_of_subs_id {f : List Char} (h1 : sub1 f = f) (h3 : sub3 f = f) :
    ∀ t, t <:+ f → matchCmdAt t = none := by
  intro t ht
  cases hm : matchCmdAt t with
  | none => rfl
  | some p =>
    exfalso
    obtain ⟨m, r⟩ := p
    obtain ⟨nm, g, ap, hnm, hl, hshape⟩ := matchCmd_inv hm
    have hn1 : ∀ u, u <:+ f → headMatchB noLW noLW true u = false :=
      subAux_id_noMatch _ _ _ f.length f le_rfl h1
    have hn3 : ∀ u, u <:+ f → headMatchB isLetterAscii noLW false u = false :=
      subAux_id_noMatch _ _ _ f.length f le_rfl h3
    rcases hshape with rfl | rfl | ⟨w, hw, rfl | rfl⟩
    · obtain ⟨nm0, lc, hnm0, hlc⟩ := cmd_last hnm
      have hsuf : lc :: ' ' :: '{' :: (ap ++ r) <:+ t := by
        refine ⟨'\\' :: nm0, ?_⟩
        rw [hl, hnm0]
        simp
      have hfalse := hn3 _ (hsuf.trans ht)
      rw [headMatch_letter_space_brace hlc] at hfalse
      simp at hfalse
    · have hsuf : '*' :: ' ' :: '{' :: (ap ++ r) <:+ t := by
        refine ⟨'\\' :: nm, ?_⟩
        rw [hl]
        simp
      have hfalse := hn1 _ (hsuf.trans ht)
      rw [headMatch_sym_space_brace (by decide) (by decide)] at hfalse
      simp at hfalse
    · have hsuf : w :: ' ' :: '{' :: (ap ++ r) <:+ t := by
        refine ⟨'\\' :: nm, ?_⟩
        rw [hl]
        simp
      have hfalse := hn1 _ (hsuf.trans ht)
      rw [headMatch_sym_space_brace (by rw [noLW, ws_not_letter hw]; rfl)
        (ws_ne_backslash hw)] at hfalse
      simp at hfalse
    · have hsuf : '*' :: ' ' :: '{' :: (ap ++ r) <:+ t := by
        refine ⟨'\\' :: (nm ++ [w]), ?_⟩
        rw [hl]
        simp
      have hfalse := hn1 _ (hsuf.trans ht)
      rw [headMatch_sym_space_brace (by decide) (by decide)] at hfalse
      simp at hfalse

/-! ### The collapse loop never deletes a space flanked by letters -/

theorem subAux_zero (g1 g2 : Char → Bool) (lk : Bool) (l : List Char) :
    subAux g1 g2 lk 0 l = l := by
  cases l <;> rfl

theorem subAux_head_stable (g1 g2 : Char → Bool) (lk : Bool) (fuel : Nat)
    (c : Char) (l : List Char) :
    ∃ t, subAux g1 g2 lk fuel (c :: l) = c :: t := by
  cases fuel with
  | zero => exact ⟨l, rfl⟩
  | succ fuel =>
    rw [subAux]
    by_cases hg : (g1 c && !lookBlocked lk c l) = true
    · rw [if_pos hg]
      cases hwm : wsMatch g2 l with
      | some p =>
        obtain ⟨c2, rest2⟩ := p
        exact ⟨c2 :: subAux g1 g2 lk fuel rest2, rfl⟩
      | none => exact ⟨subAux g1 g2 lk fuel l, rfl⟩
    · rw [if_neg hg]
      exact ⟨subAux g1 g2 lk fuel l, rfl⟩

theorem wsMatch_letter_head_none (g2 : Char → Bool) {b : Char} (v : List Char)
    (hb : isLetterAscii b = true) : wsMatch g2 (b :: v) = none := by
  rw [wsMatch, if_neg (by simp [letter_not_ws hb])]

theorem wsMatch_wb_none (g2 : Char → Bool) {w b : Char} (v : List Char)
    (hb : isLetterAscii b = true) (hg2b : g2 b = false) :
    wsMatch g2 (w :: b :: v) = none := by
  rw [wsMatch]
  by_cases hw : isWs w = true
  · rw [if_pos hw, scanNG, if_neg (by simp [hg2b]),
      if_neg (by simp [letter_not_ws hb])]
  · rw [if_neg hw]

theorem subAux_wb (g1 g2 : Char → Bool) (lk : Bool) {b : Char} (w : Char)
    (hb : isLetterAscii b = true) (fuel : Nat) (v : List Char) :
    ∃ t, subAux g1 g2 lk fuel (w :: b :: v) = w :: b :: t := by
  cases fuel with
  | zero => exact ⟨v, rfl⟩
  | succ fuel =>
    rw [subAux]
    have hwm := wsMatch_letter_head_none g2 v hb
    obtain ⟨t, ht⟩ := subAux_head_stable g1 g2 lk fuel b v
    by_cases hg : (g1 w && !lookBlocked lk w (b :: v)) = true
    · rw [if_pos hg, hwm]
      exact ⟨t, by rw [ht]⟩
    · rw [if_neg hg]
      exact ⟨t, by rw [ht]⟩

theorem scanNG_split (g2 : Char → Bool) {a : Char} (ha : isLetterAscii a = true) :
    ∀ (y : List Char) {z : List Char} {c2 : Char} {r : List Char},
      scanNG g2 (y ++ a :: z) = some (c2, r) →
      (∃ y1 y2, y = y1 ++ c2 :: y2 ∧ r = y2 ++ a :: z) ∨ (c2 = a ∧ r = z) := by
  intro y
  induction y with
  | nil =>
    intro z c2 r h
    rw [List.nil_append, scanNG] at h
    by_cases hga : g2 a = true
    · rw [if_pos hga] at h
      simp only [Option.some.injEq, Prod.mk.injEq] at h
      exact Or.inr ⟨h.1.symm, h.2.symm⟩
    · rw [if_neg hga, if_neg (by simp [letter_not_ws ha])] at h
      exact absurd h (by simp)
  | cons d y0 ih =>
    intro z c2 r h
    rw [List.cons_append, scanNG] at h
    by_cases hgd : g2 d = true
    · rw [if_pos hgd] at h
      simp only [Option.some.injEq, Prod.mk.injEq] at h
      obtain ⟨rfl, rfl⟩ := h
      exact Or.inl ⟨[], y0, rfl, rfl⟩
    · rw [if_neg hgd] at h
      by_cases hwd : isWs d = true
      · rw [if_pos hwd] at h
        rcases ih h with ⟨y1, y2, hy, hr⟩ | hright
        · exact Or.inl ⟨d :: y1, y2, by rw [hy]; rfl, hr⟩
        · exact Or.inr hright
      · rw [if_neg hwd] at h
        exact absurd h (by simp)

theorem subAux_triple (g1 g2 : Char → Bool) (lk : Bool) {a b : Char} (w : Char)
    (ha : isLetterAscii a = true) (hb : isLetterAscii b = true)
    (hg : g1 a = false ∨ g2 b = false) :
    ∀ fuel (u v : List Char), ∃ p q,
      subAux g1 g2 lk fuel (u ++ a :: w :: b :: v) = p ++ a :: w :: b :: q := by
  intro fuel
  induction fuel with
  | zero => intro u v; exact ⟨u, v, subAux_zero _ _ _ _⟩
  | succ fuel ih =>
    intro u v
    cases u with
    | nil =>
      rw [List.nil_append, subAux]
      by_cases hga : (g1 a && !lookBlocked lk a (w :: b :: v)) = true
      · have hg2b : g2 b = false := by
          rcases hg with hg | hg
          · rw [Bool.and_eq_true] at hga
            rw [hg] at hga
            exact absurd hga.1 (by simp)
          · exact hg
        rw [if_pos hga, wsMatch_wb_none g2 v hb hg2b]
        obtain ⟨t, ht⟩ := subAux_wb g1 g2 lk w hb fuel v
        exact ⟨[], t, by rw [ht]; rfl⟩
      · rw [if_neg hga]
        obtain ⟨t, ht⟩ := subAux_wb g1 g2 lk w hb fuel v
        exact ⟨[], t, by rw [ht]; rfl⟩
    | cons c u0 =>
      rw [List.cons_append, subAux]
      by_cases hgc : (g1 c && !lookBlocked lk c (u0 ++ a :: w :: b :: v)) = true
      · rw [if_pos hgc]
        cases hwm : wsMatch g2 (u0 ++ a :: w :: b :: v) with
        | none =>
          obtain ⟨p, q, hpq⟩ := ih u0 v
          exact ⟨c :: p, q, by rw [hpq]; rfl⟩
        | some pr =>
          obtain ⟨c2, rest2⟩ := pr
          cases u0 with
          | nil =>
            rw [List.nil_append, wsMatch,
              if_neg (by simp [letter_not_ws ha])] at hwm
            exact absurd hwm (by simp)
          | cons e u1 =>
            rw [List.cons_append, wsMatch] at hwm
            by_cases hwe : isWs e = true
            · rw [if_pos hwe] at hwm
              rcases scanNG_split g2 ha u1 hwm with ⟨y1, y2, hy, hr⟩ | ⟨rfl, hr⟩
              · subst hr
                obtain ⟨p, q, hpq⟩ := ih y2 v
                refine ⟨c :: c2 :: p, q, ?_⟩
                show c :: c2 :: subAux g1 g2 lk fuel (y2 ++ a :: w :: b :: v)
                  = (c :: c2 :: p) ++ a :: w :: b :: q
                rw [hpq]
                rfl
              · subst hr
                obtain ⟨t, ht⟩ := subAux_wb g1 g2 lk w hb fuel v
                refine ⟨[c], t, ?_⟩
                show c :: c2 :: subAux g1 g2 lk fuel (w :: b :: v)
                  = [c] ++ c2 :: w :: b :: t
                rw [ht]
                rfl
            · rw [if_neg hwe] at hwm
              exact absurd hwm (by simp)
      · rw [if_neg hgc]
        obtain ⟨p, q, hpq⟩ := ih u0 v
        exact ⟨c :: p, q, by rw [hpq]; rfl⟩

theorem ppIter_triple {a b : Char} (w : Char) (ha : isLetterAscii a = true)
    (hb : isLetterAscii b = true) (u v : List Char) :
    ∃ p q, ppIter (u ++ a :: w :: b :: v) = p ++ a :: w :: b :: q := by
  obtain ⟨p1, q1, h1⟩ := subAux_triple noLW noLW true w ha hb
    (Or.inl (by rw [noLW, ha]; rfl)) _ u v
  obtain ⟨p2, q2, h2⟩ := subAux_triple noLW isLetterAscii true w ha hb
    (Or.inl (by rw [noLW, ha]; rfl)) _ p1 q1
  obtain ⟨p3, q3, h3⟩ := subAux_triple isLetterAscii noLW false w ha hb
    (Or.inr (by rw [noLW, hb]; rfl)) _ p2 q2
  refine ⟨p3, q3, ?_⟩
  show sub3 (sub2 (sub1 (u ++ a :: w :: b :: v))) = _
  rw [show sub1 (u ++ a :: w :: b :: v) = p1 ++ a :: w :: b :: q1 from h1,
    show sub2 (p1 ++ a :: w :: b :: q1) = p2 ++ a :: w :: b :: q2 from h2,
    show sub3 (p2 ++ a :: w :: b :: q2) = p3 ++ a :: w :: b :: q3 from h3]

theorem ppLoopAux_triple {a b : Char} (w : Char) (ha : isLetterAscii a = true)
    (hb : isLetterAscii b = true) :
    ∀ fuel (s : List Char), (∃ p q, s = p ++ a :: w :: b :: q) →
      ∃ p q, ppLoopAux fuel s = p ++ a :: w :: b :: q := by
  intro fuel
  induction fuel with
  | zero => intro s hs; exact hs
  | succ fuel ih =>
    intro s hs
    rw [ppLoopAux]
    show (∃ p q, (if ppIter s = s then s else ppLoopAux fuel (ppIter s))
      = p ++ a :: w :: b :: q)
    by_cases he : ppIter s = s
    · rw [if_pos he]; exact hs
    · rw [if_neg he]
      obtain ⟨p0, q0, hs0⟩ := hs
      exact ih (ppIter s) (by rw [hs0]; exact ppIter_triple w ha hb p0 q0)

/-! ### The pairing pass implements the spec's greedy policy -/

theorem claimRight_eq_spec (L : Occ) :
    ∀ rs, claimRight L rs =
      match firstEligibleIdx L rs with
      | some i => some (rs.set i ((rs.getD i default).1, true))
      | none => none := by
  intro rs
  induction rs with
  | nil => rfl
  | cons p rest ih =>
    rw [claimRight, firstEligibleIdx]
    by_cases he : eligibleB L p = true
    · rw [if_pos he, if_pos he]
      rfl
    · rw [if_neg he, if_neg he, ih]
      cases hf : firstEligibleIdx L rest with
      | none => rfl
      | some i => rfl

theorem specStep_eq_claim (L : Occ) (rs : List (Occ × Bool)) :
    specStep L rs =
      match claimRight L rs with
      | some rs2 => (true, rs2)
      | none => (false, rs) := by
  rw [specStep, claimRight_eq_spec]
  cases hf : firstEligibleIdx L rs with
  | none => rfl
  | some i => rfl

theorem pairAll_eq_specGreedy :
    ∀ (ls : List Occ) (rs : List (Occ × Bool)), pairAll ls rs = specGreedy ls rs := by
  intro ls
  induction ls with
  | nil => intro rs; rfl
  | cons L ls ih =>
    intro rs
    rw [pairAll, specGreedy, specStep_eq_claim]
    cases hc : claimRight L rs with
    | some rs2 =>
      show ((L, true) :: (pairAll ls rs2).1, (pairAll ls rs2).2)
        = ((L, true) :: (specGreedy ls rs2).1, (specGreedy ls rs2).2)
      rw [ih rs2]
    | none =>
      show ((L, false) :: (pairAll ls rs).1, (pairAll ls rs).2)
        = ((L, false) :: (specGreedy ls rs).1, (specGreedy ls rs).2)
      rw [ih rs]

/-! ### The scanner returns occurrences in strictly ascending start order -/

theorem matchSpanEnd_gt {kw s : List Char} {i e : Nat}
    (h : matchSpanEnd kw s i = some e) : i < e := by
  rw [matchSpanEnd] at h
  by_cases hp : ('\\' :: kw).isPrefixOf (s.drop i) = true
  · rw [if_pos hp] at h
    cases hj : (s.drop (i + (kw.length + 1))).findIdx? (fun c => !isWs c) with
    | none => rw [hj] at h; exact absurd h (by simp)
    | some j =>
      rw [hj] at h
      have := Option.some.inj h
      omega
  · rw [if_neg hp] at h
    exact absurd h (by simp)

theorem scanAux_bounds (kw s : List Char) :
    ∀ fuel i, (∀ p ∈ scanAux kw s fuel i, i ≤ p.1) ∧
      (scanAux kw s fuel i).Pairwise (fun p q => p.1 < q.1) := by
  intro fuel
  induction fuel with
  | zero => intro i; exact ⟨by simp [scanAux], by simp [scanAux]⟩
  | succ fuel ih =>
    intro i
    rw [scanAux]
    by_cases hi : i < s.length
    · rw [if_pos hi]
      cases hm : matchSpanEnd kw s i with
      | some e =>
        have hie : i < e := matchSpanEnd_gt hm
        obtain ⟨hb, hpw⟩ := ih e
        constructor
        · intro p hp
          rcases List.mem_cons.mp hp with rfl | hp
          · simp
          · exact le_trans (le_of_lt hie) (hb p hp)
        · exact List.Pairwise.cons (fun q hq => lt_of_lt_of_le hie (hb q hq)) hpw
      | none =>
        obtain ⟨hb, hpw⟩ := ih (i + 1)
        exact ⟨fun p hp => le_trans (by omega) (hb p hp), hpw⟩
    · rw [if_neg hi]
      exact ⟨by simp, by simp⟩

theorem occOf_start {kw s : List Char} {sp : Nat × Nat} {o : Occ}
    (h : occOf kw s sp = Except.ok o) : o.start = sp.1 := by
  rw [occOf] at h
  cases he : extendEnd s sp.2 with
  | ok e2 =>
    rw [he] at h
    have h2 : Except.ok (Occ.mk (strip (pySlice s (sp.1 + (kw.length + 1)) e2)) sp.1 e2)
        = Except.ok o := h
    rw [← Except.ok.inj h2]
  | error u => rw [he] at h; exact absurd h (by simp)

theorem occsOf_starts (kw s : List Char) :
    ∀ sps occs, occsOf kw s sps = Except.ok occs →
      occs.map (fun o => o.start) = sps.map (fun p => p.1) := by
  intro sps
  induction sps with
  | nil =>
    intro occs h
    have h2 : Except.ok ([] : List Occ) = Except.ok occs := h
    rw [← Except.ok.inj h2]
    rfl
  | cons sp rest ih =>
    intro occs h
    rw [occsOf] at h
    cases ho : occOf kw s sp with
    | error u => rw [ho] at h; exact absurd h (by simp)
    | ok o =>
      rw [ho] at h
      have h2 : (match occsOf kw s rest with
        | Except.ok os => Except.ok (o :: os)
        | Except.error u => Except.error u) = Except.ok occs := h
      cases hr : occsOf kw s rest with
      | error u => rw [hr] at h2; exact absurd h2 (by simp)
      | ok os =>
        rw [hr] at h2
        have h3 : Except.ok (o :: os) = Except.ok occs := h2
        rw [← Except.ok.inj h3]
        have hos := ih os hr
        simp only [List.map_cons, hos, occOf_start ho]

theorem find_all_sorted (kw s : List Char) (occs : List Occ)
    (h : find_all_left_or_right kw s = Except.ok occs) :
    occs.Pairwise (fun o1 o2 => o1.start < o2.start) := by
  rw [find_all_left_or_right] at h
  cases ho : occsOf kw s (scanSpans kw s) with
  | error u => rw [ho] at h; exact absurd h (by simp)
  | ok os =>
    rw [ho] at h
    have hoccs : occs = os.insertionSort (fun a b => a.start ≤ b.start) :=
      (Except.ok.inj h).symm
    have hmapeq := occsOf_starts kw s _ os ho
    have hspans : (scanSpans kw s).Pairwise (fun p q => p.1 < q.1) :=
      (scanAux_bounds kw s (s.length + 1) 0).2
    have hos : os.Pairwise (fun o1 o2 => o1.start < o2.start) := by
      have hm : (os.map (fun o => o.start)).Pairwise (fun x y => x < y) := by
        rw [hmapeq]
        exact List.pairwise_map.mpr hspans
      exact List.pairwise_map.mp hm
    have hsorted : os.Sorted (fun a b => a.start ≤ b.start) :=
      hos.imp (fun hlt => le_of_lt hlt)
    rw [hoccs, hsorted.insertionSort_eq]
    exact hos

/-! ### Computing the protection step on a full `text_reg` occurrence -/

theorem noWsBranch_brace_head (X : List Char) : noWsBranch ('{' :: X) = none := by
  rcases X with _ | ⟨x1, _ | ⟨x2, X2⟩⟩ <;> simp [noWsBranch]

theorem noWsBranch_space_brace (X : List Char) :
    noWsBranch (' ' :: '{' :: X) = some ([' ', '{'], X) := by
  cases X with
  | nil => simp [noWsBranch]
  | cons x1 X1 => simp [noWsBranch]

theorem noWsBranch_star_space_brace (X : List Char) :
    noWsBranch ('*' :: ' ' :: '{' :: X) = some (['*', ' ', '{'], X) := by
  simp [noWsBranch]

theorem gapBrace_gap (gap : List Char)
    (hgap : gap ∈ [[' '], [' ', ' '], ['*', ' '], [' ', '*', ' ']]) (X : List Char) :
    gapBrace (gap ++ '{' :: X) = some (gap ++ ['{'], X) := by
  rcases (by simpa using hgap :
      gap = [' '] ∨ gap = [' ', ' '] ∨ gap = ['*', ' '] ∨ gap = [' ', '*', ' '])
    with rfl | rfl | rfl | rfl
  · show gapBrace (' ' :: '{' :: X) = _
    rw [gapBrace, if_pos (by decide), noWsBranch_brace_head, noWsBranch_space_brace]
    rfl
  · show gapBrace (' ' :: ' ' :: '{' :: X) = _
    rw [gapBrace, if_pos (by decide), noWsBranch_space_brace]
    rfl
  · show gapBrace ('*' :: ' ' :: '{' :: X) = _
    rw [gapBrace, if_neg (by decide), noWsBranch_star_space_brace]
    rfl
  · show gapBrace (' ' :: '*' :: ' ' :: '{' :: X) = _
    rw [gapBrace, if_pos (by decide), noWsBranch_star_space_brace]
    rfl

theorem argScan_clean (r : List Char) :
    ∀ (arg : List Char), (∀ c ∈ arg, c ≠ '}' ∧ c ≠ '\n') →
      argScan (arg ++ '}' :: r) = some (arg ++ ['}'], r)
  | [], _ => by rw [List.nil_append, argScan, if_pos rfl]; rfl
  | c :: a0, harg => by
    obtain ⟨hc1, hc2⟩ := harg c (List.mem_cons_self c a0)
    rw [List.cons_append, argScan, if_neg hc1, if_neg hc2,
      argScan_clean r a0 (fun x hx => harg x (List.mem_cons_of_mem c hx))]
    rfl

theorem tryName_none_of_bad_head (nm t : List Char) (h : nm.isPrefixOf t = false) :
    tryName nm t = none := by
  rw [tryName, if_neg (by simp [h])]

theorem tryName_full (nm : List Char) (gap : List Char)
    (hgap : gap ∈ [[' '], [' ', ' '], ['*', ' '], [' ', '*', ' ']])
    (arg : List Char) (harg : ∀ c ∈ arg, c ≠ '}' ∧ c ≠ '\n') (r : List Char) :
    tryName nm (nm ++ (gap ++ '{' :: (arg ++ '}' :: r)))
      = some ('\\' :: (nm ++ ((gap ++ ['{']) ++ (arg ++ ['}']))), r) := by
  rw [tryName, if_pos (List.isPrefixOf_iff_prefix.mpr ⟨_, rfl⟩), List.drop_left,
    gapBrace_gap gap hgap]
  show (match argScan (arg ++ '}' :: r) with
    | some (ap, r2) => some ('\\' :: (nm ++ ((gap ++ ['{']) ++ ap)), r2)
    | none => none) = _
  rw [argScan_clean r arg harg]

theorem opname_chars :
    "operatorname".data = 'o':: 'p':: 'e':: 'r':: 'a':: 't':: 'o':: 'r':: 'n':: 'a':: 'm':: 'e'::[] := rfl

theorem mathrm_chars : "mathrm".data = 'm':: 'a':: 't':: 'h':: 'r':: 'm'::[] := rfl

theorem text_chars : "text".data = 't':: 'e':: 'x':: 't'::[] := rfl

theorem mathbf_chars : "mathbf".data = 'm':: 'a':: 't':: 'h':: 'b':: 'f'::[] := rfl

theorem matchCmdAt_cmd (nm : List Char) (hnm : nm ∈ cmdNames) (X : List Char) :
    matchCmdAt ('\\' :: (nm ++ X)) = tryName nm (nm ++ X) := by
  rw [matchCmdAt, if_pos rfl]
  rcases (by simpa [cmdNames] using hnm :
      nm = "operatorname".data ∨ nm = "mathrm".data ∨ nm = "text".data ∨
        nm = "mathbf".data) with rfl | rfl | rfl | rfl
  · cases hq : tryName "operatorname".data ("operatorname".data ++ X) with
    | some p => rfl
    | none =>
      show (match tryName "mathrm".data ("operatorname".data ++ X) with
        | some res => some res
        | none =>
          match tryName "text".data ("operatorname".data ++ X) with
          | some res => some res
          | none => tryName "mathbf".data ("operatorname".data ++ X)) = none
      rw [tryName_none_of_bad_head "mathrm".data ("operatorname".data ++ X) rfl,
        tryName_none_of_bad_head "text".data ("operatorname".data ++ X) rfl,
        tryName_none_of_bad_head "mathbf".data ("operatorname".data ++ X) rfl]
  · rw [tryName_none_of_bad_head "operatorname".data ("mathrm".data ++ X) rfl]
    show (match tryName "mathrm".data ("mathrm".data ++ X) with
      | some res => some res
      | none =>
        match tryName "text".data ("mathrm".data ++ X) with
        | some res => some res
        | none => tryName "mathbf".data ("mathrm".data ++ X))
      = tryName "mathrm".data ("mathrm".data ++ X)
    cases hq : tryName "mathrm".data ("mathrm".data ++ X) with
    | some p => rfl
    | none =>
      show (match tryName "text".data ("mathrm".data ++ X) with
        | some res => some res
        | none => tryName "mathbf".data ("mathrm".data ++ X)) = none
      rw [tryName_none_of_bad_head "text".data ("mathrm".data ++ X) rfl,
        tryName_none_of_bad_head "mathbf".data ("mathrm".data ++ X) rfl]
  · rw [tryName_none_of_bad_head "operatorname".data ("text".data ++ X) rfl]
    show (match tryName "mathrm".data ("text".data ++ X) with
      | some res => some res
      | none =>
        match tryName "text".data ("text".data ++ X) with
        | some res => some res
        | none => tryName "mathbf".data ("text".data ++ X))
      = tryName "text".data ("text".data ++ X)
    rw [tryName_none_of_bad_head "mathrm".data ("text".data ++ X) rfl]
    show (match tryName "text".data ("text".data ++ X) with
      | some res => some res
      | none => tryName "mathbf".data ("text".data ++ X))
      = tryName "text".data ("text".data ++ X)
    cases hq : tryName "text".data ("text".data ++ X) with
    | some p => rfl
    | none =>
      show tryName "mathbf".data ("text".data ++ X) = none
      exact tryName_none_of_bad_head "mathbf".data ("text".data ++ X) rfl
  · rw [tryName_none_of_bad_head "operatorname".data ("mathbf".data ++ X) rfl]
    show (match tryName "mathrm".data ("mathbf".data ++ X) with
      | some res => some res
      | none =>
        match tryName "text".data ("mathbf".data ++ X) with
        | some res => some res
        | none => tryName "mathbf".data ("mathbf".data ++ X))
      = tryName "mathbf".data ("mathbf".data ++ X)
    rw [tryName_none_of_bad_head "mathrm".data ("mathbf".data ++ X) rfl,
      tryName_none_of_bad_head "text".data ("mathbf".data ++ X) rfl]

theorem subAux_id_of_noWs (g1 g2 : Char → Bool) (lk : Bool) :
    ∀ fuel (l : List Char), (∀ c ∈ l, isWs c = false) →
      subAux g1 g2 lk fuel l = l := by
  intro fuel
  induction fuel with
  | zero => intro l _; exact subAux_zero _ _ _ _
  | succ fuel ih =>
    intro l hl
    cases l with
    | nil => rfl
    | cons c rest =>
      rw [subAux]
      have hwm : wsMatch g2 rest = none := by
        cases rest with
        | nil => rfl
        | cons w t =>
          exact wsMatch_none_of_head_not_ws
            (hl w (List.mem_cons_of_mem c (List.mem_cons_self w t)))
      have hrec := ih rest (fun x hx => hl x (List.mem_cons_of_mem c hx))
      by_cases hg : (g1 c && !lookBlocked lk c rest) = true
      · rw [if_pos hg, hwm]
        show c :: subAux g1 g2 lk fuel rest = c :: rest
        rw [hrec]
      · rw [if_neg hg, hrec]

theorem ppLoop_id_of_noWs {l : List Char} (h : ∀ c ∈ l, isWs c = false) :
    ppLoop l = l := by
  refine ppLoop_id_of_iter ?_
  show sub3 (sub2 (sub1 l)) = l
  rw [show sub1 l = l from subAux_id_of_noWs _ _ _ _ _ h,
    show sub2 l = l from subAux_id_of_noWs _ _ _ _ _ h,
    show sub3 l = l from subAux_id_of_noWs _ _ _ _ _ h]

/-! ### Concrete claim theorems -/

/-- C1: the spec claims both core operations never raise, in particular that
the scanner's span-extension loop never indexes past the end of the string.
The code contradicts this: on the input `"\left\"` — the claim's own example
of a malformed command — the loop increments `end` past the string length and
the unchecked subscript `latex[end-1]` raises IndexError (the inner loop does
bound-check `end < len(latex)`, the outer loop forgot to). -/
theorem c1_scanner_raises_on_trailing_backslash :
    post_post_process_latex "\\left\\".data = Except.error () := rfl

/-- C2 counterexample: the claim says `reconcile_delimiters "\left( x \right]"`
blanks both keywords and returns `"( x ]"`.  It does not: the double prefix
strip in `match_left_right` empties both one-character arguments, the
`("", "")` table entry declares them compatible, both occurrences are marked
matched, and the input comes back unchanged — which is not `"( x ]"`. -/
theorem c2_counterexample :
    post_post_process_latex "\\left( x \\right]".data ≠ Except.ok "( x ]".data := by
  rw [show post_post_process_latex "\\left( x \\right]".data
        = Except.ok "\\left( x \\right]".data from rfl]
  simp only [ne_eq, Except.ok.injEq]
  decide

/-- C2 amended: on input `"\left( x \right]"` the double prefix strip reduces
both scanned arguments `"("` and `"]"` to the empty string, the `("", "")`
table entry judges them compatible, both occurrences are marked matched, and
the output is the input unchanged. -/
theorem c2_amended_matched_via_empty_pair :
    match_left_right "]".data "(".data = true ∧
    post_post_process_latex "\\left( x \\right]".data
      = Except.ok "\\left( x \\right]".data :=
  ⟨rfl, rfl⟩

/-- C3: the spec claims `"\left\langle x \right\rangle"` is judged
bracket-compatible and returned unchanged, and the table even carries the
`('langle', 'rangle')` entry for it; but the scanned arguments keep their
backslashes and the call `match_left_right(right.str, left.str)` strips
`len('left')+1` characters from the right argument and `len('right')+1` from
the left one, leaving the pair `("le", "e")`, which is in no table entry.
Both keywords are therefore blanked and the output is `" \langle x \rangle"`. -/
theorem c3_langle_pair_blanked :
    post_post_process_latex "\\left\\langle x \\right\\rangle".data
      = Except.ok " \\langle x \\rangle".data := rfl

/-- C4 counterexample: the claim makes the leading space before the opening
brace optional, but `text_reg` demands a literal space there, so on
`"\operatorname{a b}"` (no space before the brace) the protection regex does
not match, the letter–letter space survives the collapse loop, and the
internal space of the argument is NOT removed: the output is not the
space-stripped `"\operatorname{ab}"` the claim predicts. -/
theorem c4_counterexample :
    post_process "\\operatorname{a b}".data ≠ "\\operatorname{ab}".data := by
  rw [show post_process "\\operatorname{a b}".data
        = "\\operatorname{a b}".data from rfl]
  decide

/-- C5 counterexample: the claim says `normalize_whitespace` never removes a
whitespace character lying strictly between two letters; but the
protected-command substitution removes every space of a `text_reg` match,
including one strictly between the letters `a` and `b` of the argument:
`"\text {a b}"` becomes `"\text{ab}"`. -/
theorem c5_counterexample :
    post_process "\\text {a b}".data = "\\text{ab}".data := rfl

/-- C6 counterexample: `reconcile_delimiters` is not idempotent.  On
`"\left \right\aalpha \right)"` the first pass blanks the unmatched inner
`\right` (its argument `\aalpha` is too long for the empty-pair shortcut) and
keeps the `\left`/`\right)` pair, yielding `"\left \aalpha \right)"`; but in
that output the `\left` now scans the argument `\aalpha`, which no longer
reduces to an empty pair with `")"`, so a second pass blanks both remaining
keywords and yields `" \aalpha )"` — a different string. -/
theorem c6_counterexample :
    post_post_process_latex "\\left \\right\\aalpha \\right)".data
        = Except.ok "\\left \\aalpha \\right)".data ∧
    post_post_process_latex "\\left \\aalpha \\right)".data
        = Except.ok " \\aalpha )".data ∧
    "\\left \\aalpha \\right)".data ≠ " \\aalpha )".data :=
  ⟨rfl, rfl, by decide⟩

/-- C10: any right-occurrence argument of space-stripped length at most
`len('left')+1 = 5` and any left-occurrence argument of space-stripped length
at most `len('right')+1 = 6` are both reduced to the empty string by the
double prefix strip of `match_left_right` (which receives the right
occurrence's string as its first parameter), and the `("", "")` table entry
then declares them compatible regardless of bracket shape. -/
theorem c10_short_args_always_match (a b : List Char)
    (ha : ((strip a).filter (fun c => c ≠ ' ')).length ≤ 5)
    (hb : ((strip b).filter (fun c => c ≠ ' ')).length ≤ 6) :
    match_left_right a b = true := by
  unfold match_left_right
  rw [List.drop_eq_nil_of_le ha, List.drop_eq_nil_of_le hb]
  decide

/-- C10 witness: the one-character bracket arguments `"]"` and `"("` are
short enough and are judged compatible. -/
theorem c10_witness :
    ((strip "]".data).filter (fun c => c ≠ ' ')).length ≤ 5 ∧
    ((strip "(".data).filter (fun c => c ≠ ' ')).length ≤ 6 ∧
    match_left_right "]".data "(".data = true :=
  ⟨by decide, by decide, c10_short_args_always_match _ _ (by decide) (by decide)⟩

/-- C7: `normalize_whitespace` is a projection: its output is a fixed point.
The collapse loop stops at a string unchanged by all three sub passes; such a
string can contain no `text_reg` match either (the mandatory space before the
opening brace would itself be the whitespace of a sub-pass match), so on a
second run the protection step and the loop both act as the identity. -/
theorem c7_normalize_whitespace_fixed_point (s : List Char) :
    post_process (post_process s) = post_process s := by
  have hfix : ppIter (ppLoop (protect s)) = ppLoop (protect s) := ppLoop_fix (protect s)
  obtain ⟨h1, -, h3⟩ := subs_id_of_iter_id hfix
  have hnm : ∀ t, t <:+ ppLoop (protect s) → matchCmdAt t = none := noCmd_of_subs_id h1 h3
  show ppLoop (protect (ppLoop (protect s))) = ppLoop (protect s)
  rw [protect_id hnm]
  exact ppLoop_id_of_iter hfix

/-- C9: the fixed-point loop of `normalize_whitespace` terminates: an
iteration never increases the number of whitespace characters, a changing
iteration strictly decreases it (each sub pass only ever deletes whitespace
characters, at least one per match), and the loop exits as soon as an
iteration produces no change. -/
theorem c9_loop_terminates (s : List Char) :
    wsCount (ppIter s) ≤ wsCount s ∧
    (ppIter s ≠ s → wsCount (ppIter s) < wsCount s) ∧
    (ppIter s = s → ppLoop s = s) :=
  ⟨ppIter_wsCount_le s, ppIter_wsCount_lt s, fun h => ppLoop_id_of_iter h⟩

/-- C9 witness: on `"a  b"` one iteration changes the string and strictly
decreases the whitespace count; on the whitespace-free `"ab"` the first
iteration is a no-op and the loop exits with the input. -/
theorem c9_witness :
    wsCount (ppIter "a  b".data) < wsCount "a  b".data ∧
    ppLoop "ab".data = "ab".data :=
  ⟨(c9_loop_terminates "a  b".data).2.1 (by decide),
   (c9_loop_terminates "ab".data).2.2 (by decide)⟩

/-- C5 amended: provided the protected-command substitution leaves the string
unchanged, `normalize_whitespace` never removes a whitespace character lying
strictly between two letters: the letter–whitespace–letter pattern survives
the whole collapse loop (no sub-pass regex can consume such a space, since a
letter can be neither part of the `\s+?` run nor the missing
noletter/letter group on the required side). -/
theorem c5_amended_loop_keeps_letter_space_letter (u v : List Char) (a w b : Char)
    (ha : isLetterAscii a = true) (hb : isLetterAscii b = true) (hw : isWs w = true)
    (hp : protect (u ++ a :: w :: b :: v) = u ++ a :: w :: b :: v) :
    ∃ p q, post_process (u ++ a :: w :: b :: v) = p ++ a :: w :: b :: q := by
  show ∃ p q, ppLoop (protect (u ++ a :: w :: b :: v)) = p ++ a :: w :: b :: q
  rw [hp]
  exact ppLoopAux_triple w ha hb _ _ ⟨u, v, rfl⟩

/-- C5 witness: on `"a b"` (no protected command, so the substitution is the
identity) the space between the two letters survives. -/
theorem c5_witness :
    ∃ p q, post_process ([] ++ 'a' :: ' ' :: 'b' :: []) = p ++ 'a' :: ' ' :: 'b' :: q :=
  c5_amended_loop_keeps_letter_space_letter [] [] 'a' ' ' 'b'
    (by decide) (by decide) (by decide) (by decide)

/-- C8: the matching pass is the spec's greedy leftmost-first pairing.
First conjunct: the code's pass (`pairAll`, transcribing the nested Python
loops with the `matched` flags) coincides with a direct transcription of the
spec's words (`specGreedy`: for each left in order, select the first
right-occurrence index that is unmatched, starts strictly later, and is
bracket-compatible; mark it; consider no further right for that left).
Second conjunct: the scanner hands the pass its occurrences of either
keyword in strictly ascending start order, so list order is ascending start
order. -/
theorem c8_greedy_leftmost_first_pairing :
    (∀ (lefts : List Occ) (rs : List (Occ × Bool)),
      pairAll lefts rs = specGreedy lefts rs) ∧
    (∀ (kw s : List Char) (occs : List Occ),
      find_all_left_or_right kw s = Except.ok occs →
      occs.Pairwise (fun o1 o2 => o1.start < o2.start)) :=
  ⟨pairAll_eq_specGreedy, find_all_sorted⟩

/-- C8 witness: concrete pairing run and a concrete sorted scan. -/
theorem c8_witness :
    pairAll [⟨"(".data, 0, 6⟩] [(⟨"]".data, 9, 16⟩, false)]
      = specGreedy [⟨"(".data, 0, 6⟩] [(⟨"]".data, 9, 16⟩, false)] ∧
    [(⟨"(".data, 0, 6⟩ : Occ)].Pairwise (fun o1 o2 => o1.start < o2.start) :=
  ⟨c8_greedy_leftmost_first_pairing.1 _ _,
   c8_greedy_leftmost_first_pairing.2 "left".data "\\left(".data _ rfl⟩

theorem protectAux_nil : ∀ fuel, protectAux fuel [] = [] := by
  intro fuel; cases fuel <;> rfl

/-- C4 amended: the protection fires only with a literal space immediately
before the opening brace (`text_reg` is `\s?\*? {`); the claim is further
restricted to occurrences whose whitespace is the space character — the
pre-brace gap built from spaces and an optional star (the regex's optional
`\s?` taken as a space), the argument with no whitespace besides spaces —
because the collapse loop would additionally delete any other whitespace
character of the occurrence.  For such an occurrence forming the input,
`normalize_whitespace` removes exactly the spaces of the occurrence and
changes no other character; in particular the argument loses its internal
spaces and nothing else. -/
theorem c4_amended_space_required_before_brace (nm : List Char) (hnm : nm ∈ cmdNames)
    (gap : List Char) (hgap : gap ∈ [[' '], [' ', ' '], ['*', ' '], [' ', '*', ' ']])
    (arg : List Char)
    (harg : ∀ c ∈ arg, c ≠ '}' ∧ c ≠ '\n' ∧ (c = ' ' ∨ isWs c = false)) :
    post_process ('\\' :: (nm ++ (gap ++ '{' :: (arg ++ ['}']))))
      = '\\' :: (nm ++ (gap.filter (fun c => c ≠ ' ')
          ++ '{' :: (arg.filter (fun c => c ≠ ' ') ++ ['}']))) := by
  have harg2 : ∀ c ∈ arg, c ≠ '}' ∧ c ≠ '\n' :=
    fun c hc => ⟨(harg c hc).1, (harg c hc).2.1⟩
  have hnm4 : nm = "operatorname".data ∨ nm = "mathrm".data ∨ nm = "text".data ∨
      nm = "mathbf".data := by simpa [cmdNames] using hnm
  have hnmsp : ∀ c ∈ nm, c ≠ ' ' := by
    rcases hnm4 with rfl | rfl | rfl | rfl <;> decide
  have hnmws : ∀ c ∈ nm, isWs c = false := by
    rcases hnm4 with rfl | rfl | rfl | rfl <;> decide
  have hgapmem : ∀ c ∈ gap, c = ' ' ∨ c = '*' := by
    rcases (by simpa using hgap :
        gap = [' '] ∨ gap = [' ', ' '] ∨ gap = ['*', ' '] ∨ gap = [' ', '*', ' '])
      with rfl | rfl | rfl | rfl <;> decide
  have e1 : nm.filter (fun c => c ≠ ' ') = nm :=
    List.filter_eq_self.mpr (fun c hc => by simp [hnmsp c hc])
  have hpro : protect ('\\' :: (nm ++ (gap ++ '{' :: (arg ++ ['}']))))
      = ('\\' :: (nm ++ ((gap ++ ['{']) ++ (arg ++ ['}'])))).filter (fun x => x ≠ ' ') := by
    show protectAux ('\\' :: (nm ++ (gap ++ '{' :: (arg ++ ['}'])))).length
        ('\\' :: (nm ++ (gap ++ '{' :: (arg ++ ['}'])))) = _
    rw [List.length_cons, protectAux, matchCmdAt_cmd nm hnm _,
      tryName_full nm gap hgap arg harg2 []]
    show ('\\' :: (nm ++ ((gap ++ ['{']) ++ (arg ++ ['}'])))).filter (fun x => x ≠ ' ')
        ++ protectAux (nm ++ (gap ++ '{' :: (arg ++ ['}']))).length [] = _
    rw [protectAux_nil, List.append_nil]
  have hfil : ('\\' :: (nm ++ ((gap ++ ['{']) ++ (arg ++ ['}'])))).filter (fun x => x ≠ ' ')
      = '\\' :: (nm ++ (gap.filter (fun c => c ≠ ' ')
          ++ '{' :: (arg.filter (fun c => c ≠ ' ') ++ ['}']))) := by
    rw [List.filter_cons_of_pos (by decide), List.filter_append, e1,
      List.filter_append, List.filter_append, List.filter_append,
      List.filter_cons_of_pos (by decide), List.filter_cons_of_pos (by decide)]
    show '\\' :: (nm ++ ((gap.filter (fun c => c ≠ ' ') ++ '{' :: List.filter _ [])
        ++ (arg.filter (fun c => c ≠ ' ') ++ '}' :: List.filter _ []))) = _
    simp
  have hws : ∀ c ∈ ('\\' :: (nm ++ (gap.filter (fun c => c ≠ ' ')
      ++ '{' :: (arg.filter (fun c => c ≠ ' ') ++ ['}'])))), isWs c = false := by
    intro c hc
    simp only [List.mem_cons, List.mem_append, List.mem_filter,
      List.mem_singleton] at hc
    rcases hc with rfl | hc2
    · decide
    rcases hc2 with hc3 | hc4 | rfl | hc5 | (rfl | h0)
    · exact hnmws c hc3
    · rcases hgapmem c hc4.1 with rfl | rfl
      · exact absurd hc4.2 (by decide)
      · decide
    · decide
    · rcases (harg c hc5.1).2.2 with rfl | hok
      · exact absurd hc5.2 (by decide)
      · exact hok
    · decide
    · exact absurd h0 (List.not_mem_nil c)
  show ppLoop (protect ('\\' :: (nm ++ (gap ++ '{' :: (arg ++ ['}']))))) = _
  rw [hpro, hfil]
  exact ppLoop_id_of_noWs hws

/-- C4 witness: `"\mathrm {x y}"` becomes `"\mathrm{xy}"`. -/
theorem c4_witness :
    post_process ('\\' :: ("mathrm".data ++ ([' '] ++ '{' :: ("x y".data ++ ['}']))))
      = '\\' :: ("mathrm".data ++ ([' '].filter (fun c => c ≠ ' ')
          ++ '{' :: ("x y".data.filter (fun c => c ≠ ' ') ++ ['}']))) :=
  c4_amended_space_required_before_brace "mathrm".data (by decide) [' '] (by decide)
    "x y".data (by decide)

/-! ### Facts about the punctuation map and the whitespace collapse -/

theorem replPunct_ws (c : Char) : isWs (replPunct c) = isWs c := by
  rw [replPunct]
  split_ifs with h1 h2 h3
  · subst h1; decide
  · subst h2; decide
  · subst h3; decide
  · rfl

theorem replPunct_idem (c : Char) : replPunct (replPunct c) = replPunct c := by
  by_cases h1 : c = '（'
  · subst h1; rfl
  by_cases h2 : c = '）'
  · subst h2; rfl
  by_cases h3 : c = '，'
  · subst h3; rfl
  rw [show replPunct c = c from by rw [replPunct, if_neg h1, if_neg h2, if_neg h3]]
  rw [replPunct, if_neg h1, if_neg h2, if_neg h3]

theorem replPunct_space : replPunct ' ' = ' ' := rfl

theorem replPunct_ne_backslash {c : Char} (h : c ≠ '\\') : replPunct c ≠ '\\' := by
  rw [replPunct]
  split_ifs <;> first | decide | exact h

theorem collapseWs_map_comm (f : Char → Char) (hf : ∀ c, isWs (f c) = isWs c)
    (hsp : f ' ' = ' ') : ∀ s, collapseWs (s.map f) = (collapseWs s).map f
  | [] => rfl
  | [c] => by
    rw [List.map_singleton, collapseWs, collapseWs, hf]
    by_cases h : isWs c = true
    · rw [if_pos h, if_pos h, List.map_singleton, hsp]
    · rw [if_neg h, if_neg h, List.map_singleton]
  | c1 :: c2 :: rest => by
    rw [List.map_cons, List.map_cons, collapseWs, collapseWs, hf, hf]
    by_cases h12 : (isWs c1 && isWs c2) = true
    · rw [if_pos h12, if_pos h12, ← List.map_cons f c2 rest,
        collapseWs_map_comm f hf hsp (c2 :: rest)]
    · rw [if_neg h12, if_neg h12, List.map_cons, ← List.map_cons f c2 rest,
        collapseWs_map_comm f hf hsp (c2 :: rest)]
      by_cases h1 : isWs c1 = true
      · rw [if_pos h1, if_pos h1, hsp]
      · rw [if_neg h1, if_neg h1]

theorem mem_collapseWs {c : Char} : ∀ {s : List Char}, c ∈ collapseWs s → c ∈ s ∨ c = ' '
  | [], h => by simp [collapseWs] at h
  | [d], h => by
    rw [collapseWs] at h
    by_cases hd : isWs d = true
    · rw [if_pos hd] at h
      exact Or.inr (List.mem_singleton.mp h)
    · rw [if_neg hd] at h
      exact Or.inl h
  | c1 :: c2 :: rest, h => by
    rw [collapseWs] at h
    by_cases h12 : (isWs c1 && isWs c2) = true
    · rw [if_pos h12] at h
      rcases mem_collapseWs h with h2 | h2
      · exact Or.inl (List.mem_cons_of_mem c1 h2)
      · exact Or.inr h2
    · rw [if_neg h12] at h
      rcases List.mem_cons.mp h with rfl | h2
      · by_cases h1 : isWs c1 = true
        · rw [if_pos h1]
          exact Or.inr rfl
        · rw [if_neg h1] at *
          exact Or.inl (List.mem_cons_self _ _)
      · rcases mem_collapseWs h2 with h3 | h3
        · exact Or.inl (List.mem_cons_of_mem c1 h3)
        · exact Or.inr h3

theorem collapseWs_head_nonws {c : Char} (h : isWs c = false) (rest : List Char) :
    ∃ t, collapseWs (c :: rest) = c :: t := by
  cases rest with
  | nil => exact ⟨[], by rw [collapseWs, if_neg (by simp [h])]⟩
  | cons c2 r2 =>
    rw [collapseWs, if_neg (by simp [h]), if_neg (by simp [h])]
    exact ⟨collapseWs (c2 :: r2), rfl⟩

theorem collapseWs_idem : ∀ s, collapseWs (collapseWs s) = collapseWs s
  | [] => rfl
  | [c] => by
    rw [collapseWs]
    by_cases h : isWs c = true
    · rw [if_pos h]
      rfl
    · rw [if_neg h, collapseWs, if_neg h]
  | c1 :: c2 :: rest => by
    rw [collapseWs]
    by_cases h12 : (isWs c1 && isWs c2) = true
    · rw [if_pos h12]
      exact collapseWs_idem (c2 :: rest)
    · rw [if_neg h12]
      have hX := collapseWs_idem (c2 :: rest)
      by_cases h1 : isWs c1 = true
      · have h2 : isWs c2 = false := by
          cases hc2 : isWs c2 with
          | false => rfl
          | true => exact absurd (show (isWs c1 && isWs c2) = true by rw [h1, hc2]; rfl) h12
        rw [if_pos h1]
        obtain ⟨t, ht⟩ := collapseWs_head_nonws h2 rest
        rw [ht] at hX ⊢
        rw [collapseWs, if_neg (by simp [h2]), if_pos (by decide), hX]
      · rw [if_neg h1]
        cases hXv : collapseWs (c2 :: rest) with
        | nil => rw [collapseWs, if_neg (by simp [h1])]
        | cons x xs =>
          rw [hXv] at hX
          rw [collapseWs, if_neg (by simp [h1]), if_neg (by simp [h1]), hX]

/-! ### A backslash-free string has no occurrences at all -/

theorem scanAux_no_backslash (kw : List Char) {s : List Char} (h : '\\' ∉ s) :
    ∀ fuel i, scanAux kw s fuel i = [] := by
  intro fuel
  induction fuel with
  | zero => intro i; rfl
  | succ fuel ih =>
    intro i
    rw [scanAux]
    by_cases hi : i < s.length
    · rw [if_pos hi]
      have hm : matchSpanEnd kw s i = none := by
        rw [matchSpanEnd]
        have hp : ('\\' :: kw).isPrefixOf (s.drop i) = false := by
          cases hq : ('\\' :: kw).isPrefixOf (s.drop i) with
          | false => rfl
          | true =>
            obtain ⟨t2, ht2⟩ := List.isPrefixOf_iff_prefix.mp hq
            have : '\\' ∈ s.drop i := by
              rw [← ht2]
              exact List.mem_append_left _ (List.mem_cons_self _ _)
            exact absurd (List.drop_subset i s this) h
        rw [if_neg (by simp [hp])]
      rw [hm]
      exact ih (i + 1)
    · rw [if_neg hi]

theorem find_all_no_backslash (kw : List Char) {s : List Char} (h : '\\' ∉ s) :
    find_all_left_or_right kw s = Except.ok [] := by
  rw [find_all_left_or_right, show scanSpans kw s = [] from scanAux_no_backslash kw h _ _]
  rfl

theorem post_post_no_backslash {s : List Char} (h2 : '\\' ∉ s.map replPunct) :
    post_post_process_latex s = Except.ok (collapseWs (s.map replPunct)) := by
  show (match find_all_left_or_right "left".data (s.map replPunct) with
    | Except.error u => Except.error u
    | Except.ok lefts =>
      match find_all_left_or_right "right".data (s.map replPunct) with
      | Except.error u => Except.error u
      | Except.ok rights =>
        Except.ok (collapseWs
          (blankUnmatched 6
            (pairAll lefts (rights.map (fun r => (r, false)))).2
            (blankUnmatched 5
              (pairAll lefts (rights.map (fun r => (r, false)))).1
              (s.map replPunct))))) = _
  rw [find_all_no_backslash "left".data h2, find_all_no_backslash "right".data h2]
  rfl

/-- C6 amended: `reconcile_delimiters` is idempotent on strings without a
backslash: with no `\left`/`\right` occurrences the call reduces to the
punctuation map followed by whitespace collapse, and both are stable on the
first call's output. -/
theorem c6_amended_idempotent_without_backslash (s : List Char) (h : '\\' ∉ s) :
    ∃ t, post_post_process_latex s = Except.ok t ∧
      post_post_process_latex t = Except.ok t := by
  have h2 : '\\' ∉ s.map replPunct := by
    intro hm
    obtain ⟨c, hc, he⟩ := List.mem_map.mp hm
    exact replPunct_ne_backslash (fun hq => h (hq ▸ hc)) he
  refine ⟨collapseWs (s.map replPunct), post_post_no_backslash h2, ?_⟩
  have htb : '\\' ∉ collapseWs (s.map replPunct) := by
    intro hm
    rcases mem_collapseWs hm with hm2 | hm2
    · exact h2 hm2
    · exact absurd hm2 (by decide)
  have htb2 : '\\' ∉ (collapseWs (s.map replPunct)).map replPunct := by
    intro hm
    obtain ⟨c, hc, he⟩ := List.mem_map.mp hm
    exact replPunct_ne_backslash (fun hq => htb (hq ▸ hc)) he
  rw [post_post_no_backslash htb2]
  have hmap : (collapseWs (s.map replPunct)).map replPunct = collapseWs (s.map replPunct) := by
    rw [← collapseWs_map_comm replPunct replPunct_ws replPunct_space,
      List.map_map,
      show List.map (replPunct ∘ replPunct) s = List.map replPunct s from
        List.map_congr_left (fun c _ => replPunct_idem c)]
  rw [hmap, collapseWs_idem]

/-- C6 witness: the full-width punctuation example `"（x，y）"` (no
backslash) maps to `"(x,y)"` and is then a fixed point. -/
theorem c6_witness :
    ∃ t, post_post_process_latex "（x，y）".data = Except.ok t ∧
      post_post_process_latex t = Except.ok t :=
  c6_amended_idempotent_without_backslash "（x，y）".data (by decide)
